import Mathlib

/-!
Verification of the combinatorial indexing codec in `src/SquashedOrder.py`
(repository MSube/Bridge).

The module implements the combinatorial number system ("squashed order"):
`choose` (binomial coefficients via exact factorials), `index` (rank of an
ascending sequence), `seq` (unrank), and the deal codec `index52_13` /
`seq52_13` which encode an ordered partition of [0,52) into four groups of 13
as a single integer, using mixed radix composition with the module constants
`max26 = choose(26,13)` and `max39 = choose(39,13) * max26`.

Python ints are modelled as `Int`; Python floor division `//` is `Int.fdiv`
and `divmod` is `(Int.fdiv, Int.fmod)`; a raised exception (`ValueError` from
`math.factorial`, or a failed `assert`) is modelled as `none` of an `Option`
result.  Python `sorted` is a stable ascending sort, modelled by
`List.insertionSort (· ≤ ·)` (on integer keys the two agree: a sorted
permutation of an integer list is unique).  List subscripts `A[a]` are
modelled with `List.getD`; at every place this is done the source guards the
access with `a < 13` and the surrounding assertions pin the list length, so
`getD` coincides with Python indexing in every execution reachable in the
theorems below.
-/

namespace SquashedOrder

/-- Value of the factorial formula used by the source for `0 ≤ k ≤ n`:
`math.factorial(n) // math.factorial(n - k) // math.factorial(k)`,
guarded by `n < k` (Nat level). -/
def chooseN (n k : Nat) : Nat :=
  if n < k then 0 else n.factorial / (n - k).factorial / k.factorial

/-- Embedding of `choose(n, k)` over Python ints, with `none` modelling the
`ValueError` raised by `math.factorial` on a negative argument (the source
evaluates `factorial(n)`, `factorial(n - k)`, `factorial(k)` only when
`n < k` fails). -/
def pyChoose (n k : Int) : Option Int :=
  if n < k then some 0
  else if n < 0 ∨ n - k < 0 ∨ k < 0 then none
  else some ((n.toNat.factorial / (n - k).toNat.factorial / k.toNat.factorial : Nat) : Int)

/-- Total variant of `choose(n, k)`: agrees with the Python function wherever
the latter does not raise, in particular whenever `0 ≤ k`, which holds at
every call site inside `index` and `seq` (there `k` is a 1-based enumeration
position, resp. the remaining length argument). -/
def chooseI (n k : Int) : Int :=
  if n < k then 0
  else ((n.toNat.factorial / (n - k).toNat.factorial / k.toNat.factorial : Nat) : Int)

/-- Helper for `index`: `indexAux i s = sum(choose(x, j) for j, x in enumerate(s, start=i))`. -/
def indexAux : Nat → List Int → Int
  | _, [] => 0
  | i, x :: xs => chooseI x i + indexAux (i + 1) xs

/-- Embedding of `index(seq)`:
`sum(choose(x, i) for i, x in enumerate(seq, start=1))`. -/
def indexI (s : List Int) : Int := indexAux 1 s

/-- Embedding of the module constant `max26 = choose(26, 13)`. -/
def max26 : Int := chooseI 26 13

/-- Embedding of the module constant `max39 = choose(39, 13) * max26`. -/
def max39 : Int := chooseI 39 13 * max26

/-- Embedding of Python `sorted` on a list of ints. -/
def sortedPy (l : List Int) : List Int := List.insertionSort (· ≤ ·) l

/-- Embedding of Python `min` on a list of ints; the source only applies it to
nonempty lists (after the length-13 assertions have passed). -/
def pyMin : List Int → Int
  | [] => 0
  | x :: xs => xs.foldl min x

/-- Embedding of Python `max` on a list of ints (same proviso as `pyMin`). -/
def pyMax : List Int → Int
  | [] => 0
  | x :: xs => xs.foldl max x

/-- One iteration of the classification loop of `index52_13` at universe
element `e`; the state is `(B, C, a, b, c)` (`A` is read-only, only its
cursor `a` moves).  The conjunction `a < 13 ∧ …` mirrors the short-circuit
`a < 13 and element == A[a]`. -/
def ixStep (A : List Int) (st : List Int × List Int × Nat × Nat × Nat) (e : Nat) :
    List Int × List Int × Nat × Nat × Nat :=
  let (B, C, a, b, c) := st
  if a < 13 ∧ A.getD a 0 = (e : Int) then (B, C, a + 1, b, c)
  else if b < 13 ∧ B.getD b 0 = (e : Int) then
    (B.set b (B.getD b 0 - (a : Int)), C, a, b + 1, c)
  else if c < 13 ∧ C.getD c 0 = (e : Int) then
    (B, C.set c (C.getD c 0 - ((a : Int) + (b : Int))), a, b, c + 1)
  else (B, C, a, b, c)

/-- Embedding of `index52_13(sets)`; `none` models a failed `assert`. -/
def index52_13 (sets : List (List Int)) : Option Int :=
  if ¬(sets.length = 3 ∨ sets.length = 4) then none
  else if ¬(∀ s ∈ sets, s.length = 13) then none
  else if ¬(∀ s ∈ sets, 0 ≤ pyMin s ∧ pyMax s < 52) then none
  else
    let A := sortedPy (sets.getD 0 [])
    let st := (List.range 52).foldl (ixStep A)
      (sortedPy (sets.getD 1 []), sortedPy (sets.getD 2 []), 0, 0, 0)
    let B := st.1
    let C := st.2.1
    if ¬(0 ≤ pyMin A ∧ 0 ≤ pyMin B ∧ 0 ≤ pyMin C) then none
    else if ¬(pyMax A < 52 ∧ pyMax B < 39 ∧ pyMax C < 26) then none
    else some (indexI A * max39 + indexI B * max26 + indexI C)

/-- The walk of `seq`: candidate values `m, m-1, …, 1` (the source loop
`for n in range(n - 1, 0, -1)`), state `(index, c, l, set)`.  Returns the
final `(set, l)`. -/
def seqGo : Nat → Int → Int → Int → List Int → List Int × Int
  | 0, _, _, l, acc => (acc, l)
  | m + 1, idx, c, l, acc =>
    let v : Int := (m : Int) + 1
    if idx < c then seqGo m idx ((c * (v - l)).fdiv v) l acc
    else seqGo m (idx - c) ((c * l).fdiv v) (l - 1) (acc ++ [v])

/-- Embedding of `seq(index, n, l)`.  For `0 ≤ l` the source can raise no
exception (its single `choose` call then never sees a negative factorial
argument, and the walk is pure int arithmetic with positive divisors), so the
embedding is a total function. -/
def seqPy (index n l : Int) : List Int :=
  let r := seqGo (n - 1).toNat index (chooseI (n - 1) l) l []
  sortedPy (((List.range r.2.toNat).map (fun e : Nat => (e : Int))) ++ sortedPy r.1)

/-- One iteration of the re-expansion loop of `seq52_13` at universe element
`e`; state `(B, C, D, a, b, c)` (`A` read-only except for its cursor). -/
def expStep (A : List Int) (st : List Int × List Int × List Int × Nat × Nat × Nat) (e : Nat) :
    List Int × List Int × List Int × Nat × Nat × Nat :=
  let (B, C, D, a, b, c) := st
  if a < 13 ∧ A.getD a 0 = (e : Int) then (B, C, D, a + 1, b, c)
  else if b < 13 ∧ B.getD b 0 = (e : Int) - (a : Int) then
    (B.set b (e : Int), C, D, a, b + 1, c)
  else if c < 13 ∧ C.getD c 0 = (e : Int) - (a : Int) - (b : Int) then
    (B, C.set c (e : Int), D, a, b, c + 1)
  else (B, C, D ++ [(e : Int)], a, b, c)

/-- Embedding of `seq52_13(index)`; `none` models a failed `assert`. -/
def seq52_13 (index : Int) : Option (List (List Int)) :=
  let i52 := index.fdiv max39
  let r39 := index.fmod max39
  let i39 := r39.fdiv max26
  let i26 := r39.fmod max26
  let A := seqPy i52 52 13
  let st := (List.range 52).foldl (expStep A) (seqPy i39 39 13, seqPy i26 26 13, [], 0, 0, 0)
  let sets := [A, st.1, st.2.1, st.2.2.1]
  if ¬(∀ s ∈ sets, s.length = 13) then none
  else if ¬(∀ s ∈ sets, 0 ≤ pyMin s ∧ pyMax s < 52) then none
  else some sets

/-- Valid ascending combination of a domain of size `n`: the invariant the
spec requires of a `sequence` argument (strictly increasing, values in
`[0, n)`). -/
def ascIn (n : Nat) (s : List Nat) : Prop :=
  List.Chain' (· < ·) s ∧ ∀ x ∈ s, x < n

/-- Executable test for strict ascent (used only to decide `ascIn` on
concrete inputs). -/
def ascChainB : List Nat → Bool
  | [] => true
  | [_] => true
  | x :: y :: t => decide (x < y) && ascChainB (y :: t)

/-- Cast a list of naturals into the `Int`-valued world of the embedding. -/
def toInts (s : List Nat) : List Int := s.map fun x : Nat => (x : Int)

/-- Rank of a strictly descending list `d` of naturals with `k = d.length`:
the sum of `choose x i` over the elements `x` at 1-based ascending positions
`i`, read from the largest element down.  This is the value `index` computes
on the corresponding ascending list. -/
def revIdx : List Nat → Nat → Nat
  | [], _ => 0
  | x :: xs, k => Nat.choose x k + revIdx xs (k - 1)

/-- Number of elements of `L` that are smaller than `v` (for a duplicate-free
`L` this is the size of `L ∩ [0, v)`). -/
def cntLt (L : List Nat) (v : Nat) : Nat := (L.filter (fun y => decide (y < v))).length

/-- The reduced ("compressed") coordinates of group 1: each element of `B`
shifted down by the number of group-0 elements below it.  This is what the
classification loop of `index52_13` turns `B` into. -/
def compress1 (A B : List Nat) : List Nat := B.map (fun y => y - cntLt A y)

/-- The reduced coordinates of group 2: each element of `C` shifted down by
the number of group-0 and group-1 elements below it. -/
def compress2 (A B C : List Nat) : List Nat :=
  C.map (fun z => z - (cntLt A z + cntLt B z))

/-- Mixed state of an in-place list rewrite that has processed the first `b`
positions: the first `b` entries come from `new`, the rest from `old`. -/
def midQ (old new : List Int) (b : Nat) : List Int := new.take b ++ old.drop b

/-- Ascending list of the elements of `[0, e)` lying in none of the three
groups (the complement, group 3). -/
def complList (A B C : List Nat) (e : Nat) : List Nat :=
  (List.range e).filter (fun x => decide (x ∉ A ∧ x ∉ B ∧ x ∉ C))

theorem ascChainB_iff : ∀ s : List Nat, ascChainB s = true ↔ List.Chain' (· < ·) s := by
  intro s
  match s with
  | [] => simp [ascChainB]
  | [x] => simp [ascChainB]
  | x :: y :: t =>
    rw [List.chain'_cons, ← ascChainB_iff (y :: t)]
    simp [ascChainB]

instance (n : Nat) (s : List Nat) : Decidable (ascIn n s) :=
  decidable_of_iff (ascChainB s = true ∧ ∀ x ∈ s, x < n)
    (by rw [ascChainB_iff]; exact Iff.rfl)

/-! ## Basic facts about the binomial helpers -/

theorem chooseN_eq (n k : Nat) : chooseN n k = n.choose k := by
  unfold chooseN
  split
  · exact (Nat.choose_eq_zero_of_lt (by omega)).symm
  · rw [Nat.choose_eq_factorial_div_factorial (show k ≤ n by omega),
      Nat.div_div_eq_div_mul, Nat.mul_comm]

theorem chooseI_natCast (n k : Nat) : chooseI (n : Int) (k : Int) = (chooseN n k : Int) := by
  unfold chooseI chooseN
  by_cases h : n < k
  · simp [h, Int.ofNat_lt.mpr h]
  · have h' : ¬((n : Int) < (k : Int)) := by exact_mod_cast h
    have hsub : ((n : Int) - (k : Int)).toNat = n - k := Int.toNat_sub n k
    simp [h, h', hsub]

theorem chooseI_nonneg (n k : Int) : 0 ≤ chooseI n k := by
  unfold chooseI
  split
  · exact le_refl 0
  · exact Int.natCast_nonneg _

theorem pyChoose_eq_of_nonneg (n k : Int) (hk : 0 ≤ k) :
    pyChoose n k = some (chooseI n k) := by
  unfold pyChoose chooseI
  by_cases h : n < k
  · rw [if_pos h, if_pos h]
  · have h2 : ¬(n < 0 ∨ n - k < 0 ∨ k < 0) := by omega
    rw [if_neg h, if_neg h2, if_neg h]

theorem pyChoose_none_iff (n k : Int) : pyChoose n k = none ↔ (k ≤ n ∧ k < 0) := by
  unfold pyChoose
  by_cases h : n < k
  · rw [if_pos h]
    simp only [reduceCtorEq, false_iff]
    omega
  · by_cases h2 : n < 0 ∨ n - k < 0 ∨ k < 0
    · rw [if_neg h, if_pos h2]
      simp only [true_iff]
      omega
    · rw [if_neg h, if_neg h2]
      simp only [reduceCtorEq, false_iff]
      omega

/-! ## Facts about `pyMin`, `pyMax`, `sortedPy` -/

theorem foldl_min_mem (x : Int) (xs : List Int) : xs.foldl min x ∈ x :: xs := by
  induction xs generalizing x with
  | nil => simp
  | cons y t ih =>
    simp only [List.foldl_cons]
    rcases List.mem_cons.mp (ih (min x y)) with h1 | h1
    · rw [h1]
      rcases min_choice x y with h2 | h2 <;> rw [h2] <;> simp
    · simp [h1]

theorem foldl_min_le (x : Int) (xs : List Int) : ∀ y ∈ x :: xs, xs.foldl min x ≤ y := by
  induction xs generalizing x with
  | nil => simp
  | cons z t ih =>
    intro y hy
    simp only [List.foldl_cons]
    rcases List.mem_cons.mp hy with rfl | hy'
    · exact le_trans (ih _ _ (List.mem_cons_self _ _)) (min_le_left _ _)
    · rcases List.mem_cons.mp hy' with rfl | hy''
      · exact le_trans (ih _ _ (List.mem_cons_self _ _)) (min_le_right _ _)
      · exact ih _ _ (List.mem_cons_of_mem _ hy'')

theorem foldl_max_mem (x : Int) (xs : List Int) : xs.foldl max x ∈ x :: xs := by
  induction xs generalizing x with
  | nil => simp
  | cons y t ih =>
    simp only [List.foldl_cons]
    rcases List.mem_cons.mp (ih (max x y)) with h1 | h1
    · rw [h1]
      rcases max_choice x y with h2 | h2 <;> rw [h2] <;> simp
    · simp [h1]

theorem foldl_max_ge (x : Int) (xs : List Int) : ∀ y ∈ x :: xs, y ≤ xs.foldl max x := by
  induction xs generalizing x with
  | nil => simp
  | cons z t ih =>
    intro y hy
    simp only [List.foldl_cons]
    rcases List.mem_cons.mp hy with rfl | hy'
    · exact le_trans (le_max_left _ _) (ih _ _ (List.mem_cons_self _ _))
    · rcases List.mem_cons.mp hy' with rfl | hy''
      · exact le_trans (le_max_right _ _) (ih _ _ (List.mem_cons_self _ _))
      · exact ih _ _ (List.mem_cons_of_mem _ hy'')

theorem pyMin_mem {l : List Int} (h : l ≠ []) : pyMin l ∈ l := by
  cases l with
  | nil => exact absurd rfl h
  | cons x xs => exact foldl_min_mem x xs

theorem pyMin_le {l : List Int} : ∀ y ∈ l, pyMin l ≤ y := by
  cases l with
  | nil => intro y hy; simp at hy
  | cons x xs => exact foldl_min_le x xs

theorem pyMax_mem {l : List Int} (h : l ≠ []) : pyMax l ∈ l := by
  cases l with
  | nil => exact absurd rfl h
  | cons x xs => exact foldl_max_mem x xs

theorem pyMax_ge {l : List Int} : ∀ y ∈ l, y ≤ pyMax l := by
  cases l with
  | nil => intro y hy; simp at hy
  | cons x xs => exact foldl_max_ge x xs

theorem pyMin_perm {l₁ l₂ : List Int} (h : l₁.Perm l₂) : pyMin l₁ = pyMin l₂ := by
  cases l₁ with
  | nil => rw [h.symm.eq_nil]
  | cons x xs =>
    have hne₁ : (x :: xs) ≠ ([] : List Int) := by simp
    have hne₂ : l₂ ≠ [] := by
      intro h2; rw [h2] at h; exact hne₁ h.eq_nil
    exact le_antisymm (pyMin_le _ (h.mem_iff.mpr (pyMin_mem hne₂)))
      (pyMin_le _ (h.mem_iff.mp (pyMin_mem hne₁)))

theorem pyMax_perm {l₁ l₂ : List Int} (h : l₁.Perm l₂) : pyMax l₁ = pyMax l₂ := by
  cases l₁ with
  | nil => rw [h.symm.eq_nil]
  | cons x xs =>
    have hne₁ : (x :: xs) ≠ ([] : List Int) := by simp
    have hne₂ : l₂ ≠ [] := by
      intro h2; rw [h2] at h; exact hne₁ h.eq_nil
    exact le_antisymm (pyMax_ge _ (h.mem_iff.mp (pyMax_mem hne₁)))
      (pyMax_ge _ (h.mem_iff.mpr (pyMax_mem hne₂)))

theorem sortedPy_perm (l : List Int) : (sortedPy l).Perm l :=
  List.perm_insertionSort _ l

theorem sortedPy_sorted (l : List Int) : List.Sorted (· ≤ ·) (sortedPy l) :=
  List.sorted_insertionSort _ l

theorem sortedPy_eq_of_sorted {l : List Int} (h : List.Sorted (· ≤ ·) l) : sortedPy l = l :=
  List.Sorted.insertionSort_eq h

theorem sortedPy_congr {l₁ l₂ : List Int} (h : l₁.Perm l₂) : sortedPy l₁ = sortedPy l₂ :=
  List.eq_of_perm_of_sorted (((sortedPy_perm l₁).trans h).trans (sortedPy_perm l₂).symm)
    (sortedPy_sorted l₁) (sortedPy_sorted l₂)

theorem sortedPy_reverse {l : List Int} (h : List.Sorted (· ≤ ·) l) :
    sortedPy l.reverse = l :=
  List.eq_of_perm_of_sorted ((sortedPy_perm l.reverse).trans (List.reverse_perm l))
    (sortedPy_sorted l.reverse) h

/-! ## The reference rank on descending lists -/

theorem descChain_length_le {x : Nat} {xs : List Nat}
    (h : List.Chain' (· > ·) (x :: xs)) : xs.length ≤ x := by
  induction xs generalizing x with
  | nil => simp
  | cons y t ih =>
    have h1 : x > y := (List.chain'_cons.mp h).1
    have h2 := ih (List.chain'_cons.mp h).2
    simp only [List.length_cons]
    omega

theorem revIdx_lt {x : Nat} {xs : List Nat} (h : List.Chain' (· > ·) (x :: xs)) :
    revIdx (x :: xs) (xs.length + 1) < Nat.choose (x + 1) (xs.length + 1) := by
  induction xs generalizing x with
  | nil =>
    simp [revIdx, Nat.choose_one_right]
  | cons y t ih =>
    have hxy : x > y := (List.chain'_cons.mp h).1
    have ih' := ih (List.chain'_cons.mp h).2
    have mono : Nat.choose (y + 1) (t.length + 1) ≤ Nat.choose x (t.length + 1) :=
      Nat.choose_le_choose _ (by omega)
    have pascal : Nat.choose (x + 1) (t.length + 1 + 1)
        = Nat.choose x (t.length + 1) + Nat.choose x (t.length + 1 + 1) := by
      simpa [Nat.succ_eq_add_one] using Nat.choose_succ_succ x (t.length + 1)
    simp only [revIdx, List.length_cons, Nat.add_sub_cancel] at ih' ⊢
    omega

theorem choose_le_revIdx (x : Nat) (xs : List Nat) (k : Nat) :
    Nat.choose x k ≤ revIdx (x :: xs) k :=
  Nat.le_add_right _ _

/-! ## `index` computes `revIdx` -/

@[simp] theorem toInts_nil : toInts [] = [] := rfl

@[simp] theorem toInts_cons (x : Nat) (s : List Nat) :
    toInts (x :: s) = (x : Int) :: toInts s := rfl

@[simp] theorem toInts_append (s t : List Nat) :
    toInts (s ++ t) = toInts s ++ toInts t := by
  simp [toInts]

@[simp] theorem toInts_length (s : List Nat) : (toInts s).length = s.length := by
  simp [toInts]

theorem toInts_reverse (s : List Nat) : toInts s.reverse = (toInts s).reverse := by
  simp [toInts]

theorem toInts_inj {s t : List Nat} (h : toInts s = toInts t) : s = t := by
  induction s generalizing t with
  | nil => cases t with
    | nil => rfl
    | cons y t' => simp [toInts] at h
  | cons x s' ih =>
    cases t with
    | nil => simp [toInts] at h
    | cons y t' =>
      simp only [toInts_cons, List.cons.injEq] at h
      have hx : x = y := by exact_mod_cast h.1
      rw [hx, ih h.2]

theorem indexAux_append (u v : List Int) (i : Nat) :
    indexAux i (u ++ v) = indexAux i u + indexAux (i + u.length) v := by
  induction u generalizing i with
  | nil => simp [indexAux]
  | cons x u' ih =>
    simp only [List.cons_append, indexAux, List.length_cons, List.append_eq, ih (i + 1)]
    have harg : i + 1 + u'.length = i + (u'.length + 1) := by omega
    rw [harg, add_assoc]

theorem indexAux_cast_rev (s : List Nat) : ∀ i : Nat,
    indexAux (i + 1) (toInts s) = (revIdx s.reverse (i + s.length) : Int) := by
  induction s using List.reverseRecOn with
  | nil => intro i; simp [indexAux, revIdx]
  | append_singleton s' x ih =>
    intro i
    rw [toInts_append, indexAux_append, ih i, toInts_length]
    have hrev : (s' ++ [x]).reverse = x :: s'.reverse := by simp
    rw [hrev]
    simp only [toInts_cons, toInts_nil, indexAux, List.length_append,
      List.length_singleton, revIdx, add_zero]
    have h2 : i + (s'.length + 1) - 1 = i + s'.length := by omega
    have h3 : i + 1 + s'.length = i + (s'.length + 1) := by omega
    rw [h2, h3, chooseI_natCast, chooseN_eq]
    push_cast
    ring

theorem indexI_cast (s : List Nat) :
    indexI (toInts s) = (revIdx s.reverse s.length : Int) := by
  have h := indexAux_cast_rev s 0
  simpa [indexI] using h

/-! ## Exactness of the two division steps in the walk of `seq` -/

theorem fdiv_natCast (a b : Nat) : ((a : Int)).fdiv (b : Int) = ((a / b : Nat) : Int) :=
  (Int.ofNat_fdiv a b).symm

theorem fmod_natCast (a b : Nat) : ((a : Int)).fmod (b : Int) = ((a % b : Nat) : Int) :=
  (Int.ofNat_fmod a b).symm

theorem chooseN_include_step {v l : Nat} (hv : 1 ≤ v) (hl : 1 ≤ l) :
    ((chooseN v l : Int) * (l : Int)).fdiv (v : Int) = (chooseN (v - 1) (l - 1) : Int) := by
  have hid : chooseN v l * l = v * chooseN (v - 1) (l - 1) := by
    rw [chooseN_eq, chooseN_eq]
    have h := Nat.succ_mul_choose_eq (v - 1) (l - 1)
    simp only [Nat.succ_eq_add_one] at h
    rw [show v - 1 + 1 = v by omega, show l - 1 + 1 = l by omega] at h
    omega
  rw [show ((chooseN v l : Int) * (l : Int)) = ((chooseN v l * l : Nat) : Int) by push_cast; ring,
    fdiv_natCast, hid, Nat.mul_div_cancel_left _ (by omega : 0 < v)]

theorem chooseN_exclude_step {v l : Nat} (hv : 1 ≤ v) (hl : l ≤ v) :
    ((chooseN v l : Int) * ((v : Int) - (l : Int))).fdiv (v : Int)
      = (chooseN (v - 1) l : Int) := by
  have hid : chooseN v l * (v - l) = v * chooseN (v - 1) l := by
    rw [chooseN_eq, chooseN_eq]
    have h := Nat.choose_mul_succ_eq (v - 1) l
    rw [show v - 1 + 1 = v by omega] at h
    calc Nat.choose v l * (v - l) = Nat.choose (v - 1) l * v := h.symm
      _ = v * Nat.choose (v - 1) l := Nat.mul_comm _ _
  rw [show ((v : Int) - (l : Int)) = ((v - l : Nat) : Int) by
      rw [Nat.cast_sub hl],
    show ((chooseN v l : Int) * ((v - l : Nat) : Int)) = ((chooseN v l * (v - l) : Nat) : Int) by
      push_cast; ring,
    fdiv_natCast, hid, Nat.mul_div_cancel_left _ (by omega : 0 < v)]

/-! ## Correctness of the walk of `seq` -/

theorem seqGo_spec (m : Nat) : ∀ (d : List Nat) (acc : List Int),
    List.Chain' (· > ·) d → (∀ x ∈ d, x ≤ m) →
    seqGo m (revIdx d d.length : Int) (chooseN m d.length : Int) (d.length : Int) acc
      = (acc ++ toInts (d.filter (fun x => decide (x ≠ 0))), if 0 ∈ d then (1 : Int) else 0) := by
  induction m with
  | zero =>
    intro d acc hch hle
    cases d with
    | nil => simp [seqGo]
    | cons x xs =>
      have hx : x = 0 := Nat.le_zero.mp (hle x (List.mem_cons_self _ _))
      cases xs with
      | nil => subst hx; simp [seqGo, toInts]
      | cons y t =>
        have h1 : x > y := (List.chain'_cons.mp hch).1
        omega
  | succ m ih =>
    intro d acc hch hle
    cases d with
    | nil =>
      have hc0 : chooseN (m + 1) 0 = 1 := by rw [chooseN_eq, Nat.choose_zero_right]
      have hcm : chooseN m 0 = 1 := by rw [chooseN_eq, Nat.choose_zero_right]
      have step := ih [] acc (List.chain'_nil) (by simp)
      simp only [List.length_nil, revIdx, hcm, List.not_mem_nil, List.filter_nil,
        toInts_nil, List.append_nil, if_false] at step
      simp only [List.length_nil, revIdx, hc0, List.not_mem_nil, List.filter_nil,
        toInts_nil, List.append_nil, if_false]
      rw [seqGo]
      simp only [Nat.cast_zero, Nat.cast_one]
      rw [if_pos (by omega : (0 : Int) < 1)]
      have hdiv : ((1 : Int) * (((m : Int) + 1) - 0)).fdiv ((m : Int) + 1) = 1 := by
        rw [sub_zero, one_mul]
        exact Int.fdiv_self (by omega)
      rw [hdiv]
      exact step
    | cons x xs =>
      have hpw : List.Pairwise (· > ·) (x :: xs) :=
        List.chain'_iff_pairwise.mp hch
      have hxxs : ∀ y ∈ xs, y < x := fun y hy => (List.pairwise_cons.mp hpw).1 y hy
      have hk : xs.length ≤ x := descChain_length_le hch
      have hxle : x ≤ m + 1 := hle x (List.mem_cons_self _ _)
      have hvcast : ((m : Int) + 1) = ((m + 1 : Nat) : Int) := by push_cast; ring
      by_cases hx : x = m + 1
      · -- the candidate equals the largest remaining element: it is appended
        have hge : (chooseN (m + 1) (xs.length + 1) : Int)
            ≤ (revIdx (x :: xs) (xs.length + 1) : Int) := by
          rw [chooseN_eq, ← hx]
          exact_mod_cast choose_le_revIdx x xs (xs.length + 1)
        have hidx : (revIdx (x :: xs) (xs.length + 1) : Int)
            - (chooseN (m + 1) (xs.length + 1) : Int) = (revIdx xs xs.length : Int) := by
          simp only [revIdx, Nat.add_sub_cancel, chooseN_eq, ← hx]
          push_cast
          ring
        have hstep : ((chooseN (m + 1) (xs.length + 1) : Int) * ((xs.length + 1 : Nat) : Int)).fdiv
            ((m + 1 : Nat) : Int) = (chooseN m xs.length : Int) := by
          have h := chooseN_include_step (v := m + 1) (l := xs.length + 1) (by omega) (by omega)
          simpa using h
        rw [seqGo]
        simp only [List.length_cons]
        rw [if_neg (by omega)]
        have harg1 : ((xs.length + 1 : Nat) : Int) - 1 = (xs.length : Int) := by push_cast; ring
        rw [hidx, hvcast, hstep, harg1]
        have hrec := ih xs (acc ++ [((m + 1 : Nat) : Int)]) (List.Chain'.tail hch)
          (fun y hy => by have := hxxs y hy; omega)
        rw [hrec]
        have hfz : (x :: xs).filter (fun z => decide (z ≠ 0)) =
            x :: xs.filter (fun z => decide (z ≠ 0)) :=
          List.filter_cons_of_pos (by simp [hx])
        have hmem : (0 ∈ x :: xs) ↔ (0 ∈ xs) := by
          simp only [List.mem_cons]
          have hxne : ¬((0 : Nat) = x) := by omega
          simp [hxne]
        rw [hfz]
        simp only [hmem]
        simp [toInts, hx]
      · -- the candidate is absent from the remaining elements: it is skipped
        have hxm : x ≤ m := by omega
        have hlt : (revIdx (x :: xs) (xs.length + 1) : Int)
            < (chooseN (m + 1) (xs.length + 1) : Int) := by
          have h1 := revIdx_lt hch
          have h2 : Nat.choose (x + 1) (xs.length + 1) ≤ Nat.choose (m + 1) (xs.length + 1) :=
            Nat.choose_le_choose _ (by omega)
          rw [chooseN_eq]
          exact_mod_cast lt_of_lt_of_le h1 h2
        have hstep : ((chooseN (m + 1) (xs.length + 1) : Int) *
            (((m + 1 : Nat) : Int) - ((xs.length + 1 : Nat) : Int))).fdiv ((m + 1 : Nat) : Int)
            = (chooseN m (xs.length + 1) : Int) := by
          have h := chooseN_exclude_step (v := m + 1) (l := xs.length + 1)
            (by omega) (by omega)
          simpa using h
        rw [seqGo]
        simp only [List.length_cons]
        rw [if_pos hlt]
        rw [hvcast, hstep]
        exact ih (x :: xs) acc hch (by
          intro y hy
          rcases List.mem_cons.mp hy with rfl | hy'
          · exact hxm
          · have := hxxs y hy'; omega)

/-! ## The unrank/rank round trip -/

theorem toInts_sorted_le {s : List Nat} (h : List.Chain' (· < ·) s) :
    List.Sorted (· ≤ ·) (toInts s) := by
  unfold toInts
  rw [List.Sorted, List.pairwise_map]
  exact (List.chain'_iff_pairwise.mp h).imp
    (fun hab => by exact_mod_cast Nat.le_of_lt hab)

theorem filter_chain' {s : List Nat} (p : Nat → Bool) (h : List.Chain' (· < ·) s) :
    List.Chain' (· < ·) (s.filter p) := by
  rw [List.chain'_iff_pairwise] at h ⊢
  exact h.sublist (List.filter_sublist s)

theorem seq_index_roundtrip (n : Nat) (s : List Nat)
    (hch : List.Chain' (· < ·) s) (hbd : ∀ x ∈ s, x < n) :
    seqPy (indexI (toInts s)) (n : Int) (s.length : Int) = toInts s := by
  cases n with
  | zero =>
    have hs : s = [] := by
      cases s with
      | nil => rfl
      | cons x t => exact absurd (hbd x (List.mem_cons_self _ _)) (by omega)
    subst hs
    rfl
  | succ m =>
    rw [indexI_cast]
    unfold seqPy
    have h1 : (((m + 1 : Nat) : Int) - 1) = ((m : Nat) : Int) := by push_cast; ring
    rw [h1]
    have h2 : ((m : Nat) : Int).toNat = m := Int.toNat_natCast m
    rw [h2, chooseI_natCast]
    have hrev1 : List.Chain' (· > ·) s.reverse := by
      rw [List.chain'_reverse]
      exact hch
    have hrev2 : ∀ x ∈ s.reverse, x ≤ m := fun x hx => by
      have := hbd x (List.mem_reverse.mp hx); omega
    have hspec := seqGo_spec m s.reverse [] hrev1 hrev2
    rw [List.length_reverse] at hspec
    rw [hspec]
    simp only [List.nil_append]
    rw [List.filter_reverse, toInts_reverse]
    have hsubch : List.Chain' (· < ·) (s.filter (fun x => decide (x ≠ 0))) :=
      filter_chain' _ hch
    rw [sortedPy_reverse (toInts_sorted_le hsubch)]
    by_cases h0 : 0 ∈ s
    · -- the minimal element 0 is present: it is restored by the final fill
      obtain ⟨t, rfl⟩ : ∃ t, s = 0 :: t := by
        cases s with
        | nil => simp at h0
        | cons y t =>
          rcases List.mem_cons.mp h0 with hy | hy
          · exact ⟨t, by rw [← hy]⟩
          · have := (List.pairwise_cons.mp (List.chain'_iff_pairwise.mp hch)).1 0 hy
            omega
      have ht : ∀ y ∈ t, 0 < y :=
        (List.pairwise_cons.mp (List.chain'_iff_pairwise.mp hch)).1
      have h0r : (0 : Nat) ∈ (0 :: t).reverse := by simp
      rw [if_pos h0r]
      have hfil : (0 :: t).filter (fun x => decide (x ≠ 0)) = t := by
        rw [List.filter_cons_of_neg (by simp)]
        rw [List.filter_eq_self.mpr]
        intro a ha
        have := ht a ha
        simp
        omega
      rw [hfil]
      have hr : (List.range (Int.toNat 1)).map (fun e : Nat => (e : Int)) = [(0 : Int)] := rfl
      rw [hr]
      have hcons : ((0 : Int) :: toInts t) = toInts (0 :: t) := rfl
      rw [List.singleton_append, hcons]
      exact sortedPy_eq_of_sorted (toInts_sorted_le hch)
    · -- 0 absent: nothing to fill
      have h0r : (0 : Nat) ∉ s.reverse := by simpa using h0
      rw [if_neg h0r]
      have hfil : s.filter (fun x => decide (x ≠ 0)) = s := by
        rw [List.filter_eq_self.mpr]
        intro a ha
        have : a ≠ 0 := fun hz => h0 (hz ▸ ha)
        simp [this]
      rw [hfil]
      have hr : (List.range (Int.toNat 0)).map (fun e : Nat => (e : Int)) = [] := rfl
      rw [hr, List.nil_append]
      exact sortedPy_eq_of_sorted (toInts_sorted_le hch)

/-! ## Order-isomorphism properties of the rank -/

theorem revIdx_lt_choose {n : Nat} {s : List Nat}
    (hch : List.Chain' (· < ·) s) (hbd : ∀ x ∈ s, x < n) :
    revIdx s.reverse s.length < Nat.choose n s.length := by
  cases hrev : s.reverse with
  | nil =>
    have hs : s = [] := by
      have := congrArg List.reverse hrev
      simpa using this
    subst hs
    simp [revIdx, Nat.choose_zero_right]
  | cons x xs =>
    have hch' : List.Chain' (· > ·) (x :: xs) := by
      rw [← hrev, List.chain'_reverse]
      exact hch
    have h1 := revIdx_lt hch'
    have hlen : s.length = xs.length + 1 := by
      have := congrArg List.length hrev
      simpa using this
    have hxn : x < n := hbd x (by
      have : x ∈ s.reverse := by rw [hrev]; exact List.mem_cons_self _ _
      exact List.mem_reverse.mp this)
    have h2 : Nat.choose (x + 1) (xs.length + 1) ≤ Nat.choose n (xs.length + 1) :=
      Nat.choose_le_choose _ (by omega)
    rw [hlen]
    omega

theorem index_inj {n : Nat} {s t : List Nat}
    (hchs : List.Chain' (· < ·) s) (hbds : ∀ x ∈ s, x < n)
    (hcht : List.Chain' (· < ·) t) (hbdt : ∀ x ∈ t, x < n)
    (hlen : s.length = t.length)
    (h : indexI (toInts s) = indexI (toInts t)) : s = t := by
  apply toInts_inj
  have h1 := seq_index_roundtrip n s hchs hbds
  have h2 := seq_index_roundtrip n t hcht hbdt
  rw [← h1, ← h2, h, hlen]

theorem sort_chain' (t : Finset Nat) : List.Chain' (· < ·) (t.sort (· ≤ ·)) := by
  rw [List.chain'_iff_pairwise]
  exact Finset.sort_sorted_lt t

theorem index_surj {n k : Nat} (_hk : k ≤ n) {mval : Nat} (hm : mval < Nat.choose n k) :
    ∃ s : List Nat, List.Chain' (· < ·) s ∧ (∀ x ∈ s, x < n) ∧ s.length = k ∧
      indexI (toInts s) = (mval : Int) := by
  classical
  set P := Finset.powersetCard k (Finset.range n) with hP
  set f : Finset Nat → Nat := fun t => revIdx ((t.sort (· ≤ ·)).reverse) k with hf
  have hmemP : ∀ t ∈ P, (∀ x ∈ t.sort (· ≤ ·), x < n) ∧ (t.sort (· ≤ ·)).length = k := by
    intro t ht
    rcases Finset.mem_powersetCard.mp ht with ⟨hsub, hcard⟩
    constructor
    · intro x hx
      have := hsub (Finset.mem_sort (α := Nat) (· ≤ ·) |>.mp hx)
      exact Finset.mem_range.mp this
    · rw [Finset.length_sort]; exact hcard
  have hinj : Set.InjOn f P := by
    intro t1 h1 t2 h2 hft
    rcases hmemP t1 h1 with ⟨hb1, hl1⟩
    rcases hmemP t2 h2 with ⟨hb2, hl2⟩
    have heq : t1.sort (· ≤ ·) = t2.sort (· ≤ ·) := by
      apply index_inj (n := n) (sort_chain' t1) hb1 (sort_chain' t2) hb2 (by rw [hl1, hl2])
      rw [indexI_cast, indexI_cast, hl1, hl2]
      exact_mod_cast hft
    have := congrArg List.toFinset heq
    rwa [Finset.sort_toFinset, Finset.sort_toFinset] at this
  have hsub : P.image f ⊆ Finset.range (Nat.choose n k) := by
    intro y hy
    rcases Finset.mem_image.mp hy with ⟨t, ht, rfl⟩
    rcases hmemP t ht with ⟨hb, hl⟩
    rw [Finset.mem_range, hf]
    have := revIdx_lt_choose (n := n) (sort_chain' t) hb
    rwa [hl] at this
  have hcard : (P.image f).card = Nat.choose n k := by
    rw [Finset.card_image_of_injOn hinj, hP, Finset.card_powersetCard, Finset.card_range]
  have heq : P.image f = Finset.range (Nat.choose n k) :=
    Finset.eq_of_subset_of_card_le hsub (by rw [hcard, Finset.card_range])
  have hmem : mval ∈ P.image f := by rw [heq]; exact Finset.mem_range.mpr hm
  rcases Finset.mem_image.mp hmem with ⟨t, ht, hft⟩
  rcases hmemP t ht with ⟨hb, hl⟩
  refine ⟨t.sort (· ≤ ·), sort_chain' t, hb, hl, ?_⟩
  rw [indexI_cast, hl]
  exact_mod_cast hft

theorem revIdx_colex_mono : ∀ (d e : List Nat), List.Lex (· < ·) d e →
    List.Chain' (· > ·) d → List.Chain' (· > ·) e → d.length = e.length →
    revIdx d d.length < revIdx e e.length := by
  intro d e hlex
  induction hlex with
  | nil =>
    intro _ _ hlen
    simp at hlen
  | @cons a l₁ l₂ h ih =>
    intro hd he hlen
    have hlen' : l₁.length = l₂.length := by simpa using hlen
    have hrec := ih hd.tail he.tail hlen'
    rw [hlen'] at hrec
    simp only [List.length_cons, revIdx, Nat.add_sub_cancel, hlen']
    omega
  | @rel a l₁ b l₂ hab =>
    intro hd he hlen
    have hlen' : l₁.length = l₂.length := by simpa using hlen
    have h1 := revIdx_lt hd
    have h2 : Nat.choose (a + 1) (l₁.length + 1) ≤ Nat.choose b (l₁.length + 1) :=
      Nat.choose_le_choose _ (by omega)
    have h3 : Nat.choose b (l₂.length + 1) ≤ revIdx (b :: l₂) (l₂.length + 1) :=
      choose_le_revIdx _ _ _
    simp only [List.length_cons]
    rw [hlen'] at h1 h2 ⊢
    omega

theorem revIdx_range (k : Nat) : revIdx (List.range k).reverse k = 0 := by
  induction k with
  | zero => rfl
  | succ k ih =>
    rw [List.range_succ, List.reverse_append]
    simp [revIdx, Nat.choose_succ_self, ih]

theorem revIdx_top (k : Nat) : ∀ n : Nat, k ≤ n →
    revIdx (List.range' (n - k) k).reverse k = Nat.choose n k - 1 := by
  induction k with
  | zero => intro n _; simp [revIdx, Nat.choose_zero_right]
  | succ k ih =>
    intro n hk
    have hcat : List.range' (n - (k + 1)) (k + 1) = List.range' (n - (k + 1)) k ++ [n - 1] := by
      rw [List.range'_concat]
      congr 1
      simp
      omega
    have harg : n - (k + 1) = (n - 1) - k := by omega
    rw [hcat, List.reverse_append]
    simp only [List.reverse_singleton, List.singleton_append, List.nil_append,
      List.append_eq, revIdx, Nat.add_sub_cancel]
    rw [harg, ih (n - 1) (by omega)]
    have hpos : 0 < Nat.choose (n - 1) k := Nat.choose_pos (by omega)
    have pascal : Nat.choose n (k + 1) = Nat.choose (n - 1) k + Nat.choose (n - 1) (k + 1) := by
      have h := Nat.choose_succ_succ (n - 1) k
      simp only [Nat.succ_eq_add_one] at h
      rw [show n - 1 + 1 = n by omega] at h
      omega
    omega

theorem chooseI_eq_choose_toNat {n k : Int} (hk : 0 ≤ k) (hkn : k ≤ n) :
    chooseI n k = ((Nat.choose n.toNat k.toNat : Nat) : Int) := by
  unfold chooseI
  rw [if_neg (by omega)]
  have h1 : (n - k).toNat = n.toNat - k.toNat := by omega
  rw [h1, ← chooseN_eq]
  unfold chooseN
  rw [if_neg (by omega)]

theorem pyChoose_natCast (n k : Nat) :
    pyChoose (n : Int) (k : Int) = some ((chooseN n k : Nat) : Int) := by
  rw [pyChoose_eq_of_nonneg _ _ (Int.natCast_nonneg k), chooseI_natCast]

/-! ## Claim theorems and witnesses -/

/-- Claim C2: for every domain size `n`, every `k` with `0 ≤ k ≤ n`, and every
strictly ascending sequence `s` of `k` values drawn from `[0, n)`, unranking
the rank recovers the sequence: `seq(index(s), n, k) == s`. -/
theorem claim_C2_unrank_rank_roundtrip (n k : Nat) (s : List Nat) (hk : k ≤ n)
    (hasc : ascIn n s) (hlen : s.length = k) :
    seqPy (indexI (toInts s)) (n : Int) (k : Int) = toInts s := by
  subst hlen
  exact seq_index_roundtrip n s hasc.1 hasc.2

/-- Witness for claim C2 at the concrete input `s = [1,3,5]`, `n = 6`, `k = 3`. -/
theorem claim_C2_witness :
    (3 ≤ 6 ∧ ascIn 6 [1, 3, 5] ∧ ([1, 3, 5] : List Nat).length = 3) ∧
    seqPy (indexI (toInts [1, 3, 5])) (6 : Int) (3 : Int) = toInts [1, 3, 5] :=
  ⟨by decide,
   claim_C2_unrank_rank_roundtrip 6 3 [1, 3, 5] (by decide) (by decide) (by decide)⟩

/-- Claim C3: for `0 ≤ k ≤ n` the rank `index` is an order isomorphism from
the `C(n,k)` strictly ascending `k`-combinations of `[0,n)` (ordered by the
combinatorial number system: lexicographic comparison from the largest
elements, i.e. on the reversed lists) onto `[0, C(n,k))`: it maps into the
range, is injective, hits every value, sends `[0..k-1]` to `0` and
`[n-k..n-1]` to `C(n,k)-1`, and is strictly monotone. -/
theorem claim_C3_rank_order_iso (n k : Nat) (hk : k ≤ n) :
    (∀ s : List Nat, ascIn n s → s.length = k →
      0 ≤ indexI (toInts s) ∧ indexI (toInts s) < (chooseN n k : Int)) ∧
    (∀ s t : List Nat, ascIn n s → ascIn n t → s.length = k → t.length = k →
      indexI (toInts s) = indexI (toInts t) → s = t) ∧
    (∀ mval : Nat, mval < chooseN n k →
      ∃ s : List Nat, ascIn n s ∧ s.length = k ∧ indexI (toInts s) = (mval : Int)) ∧
    indexI (toInts (List.range k)) = 0 ∧
    indexI (toInts (List.range' (n - k) k)) = (chooseN n k : Int) - 1 ∧
    (∀ s t : List Nat, ascIn n s → ascIn n t → s.length = k → t.length = k →
      List.Lex (· < ·) s.reverse t.reverse → indexI (toInts s) < indexI (toInts t)) := by
  refine ⟨?_, ?_, ?_, ?_, ?_, ?_⟩
  · intro s hs hlen
    constructor
    · rw [indexI_cast]
      exact Int.natCast_nonneg _
    · rw [indexI_cast, chooseN_eq, ← hlen]
      exact_mod_cast revIdx_lt_choose hs.1 hs.2
  · intro s t hs ht hls hlt h
    exact index_inj hs.1 hs.2 ht.1 ht.2 (by rw [hls, hlt]) h
  · intro mval hm
    rw [chooseN_eq] at hm
    rcases index_surj hk hm with ⟨s, h1, h2, h3, h4⟩
    exact ⟨s, ⟨h1, h2⟩, h3, h4⟩
  · rw [indexI_cast, List.length_range, revIdx_range]
    rfl
  · rw [indexI_cast, List.length_range', revIdx_top k n hk, chooseN_eq]
    have := Nat.choose_pos hk
    omega
  · intro s t hs ht hls hlt hlex
    rw [indexI_cast, indexI_cast, hls, hlt]
    have h := revIdx_colex_mono s.reverse t.reverse hlex
      (by rw [List.chain'_reverse]; exact hs.1)
      (by rw [List.chain'_reverse]; exact ht.1)
      (by simp [hls, hlt])
    rw [List.length_reverse, List.length_reverse, hls, hlt] at h
    exact_mod_cast h

/-- Witness for claim C3 at `n = 6`, `k = 3` (as the spec suggests). -/
theorem claim_C3_witness :
    (∃ s : List Nat, ascIn 6 s ∧ s.length = 3 ∧ indexI (toInts s) = (7 : Int)) ∧
    indexI (toInts (List.range 3)) = 0 ∧
    indexI (toInts (List.range' 3 3)) = (chooseN 6 3 : Int) - 1 ∧
    indexI (toInts [0, 1, 5]) < indexI (toInts [0, 2, 5]) :=
  ⟨(claim_C3_rank_order_iso 6 3 (by decide)).2.2.1 7 (by decide),
   (claim_C3_rank_order_iso 6 3 (by decide)).2.2.2.1,
   (claim_C3_rank_order_iso 6 3 (by decide)).2.2.2.2.1,
   (claim_C3_rank_order_iso 6 3 (by decide)).2.2.2.2.2 [0, 1, 5] [0, 2, 5]
     (by decide) (by decide) (by decide) (by decide) (by decide)⟩

/-- Claim C7: `choose(n, k)` returns 0 whenever `n < k` (including every
negative `n`), and otherwise returns the exact binomial coefficient (stated
on the domain where the factorial formula denotes, `0 ≤ k ≤ n`);
consequently `choose(n, k) = choose(n, n-k)` and `choose(n, 0) = 1` for all
`n ∈ [0, 52]`, `k ∈ [0, n]`. -/
theorem claim_C7_choose_correct :
    (∀ n k : Int, n < k → pyChoose n k = some 0) ∧
    (∀ n k : Int, 0 ≤ k → k ≤ n →
      pyChoose n k = some ((Nat.choose n.toNat k.toNat : Nat) : Int)) ∧
    (∀ n k : Nat, n ≤ 52 → k ≤ n →
      pyChoose (n : Int) (((n - k : Nat) : Nat) : Int) = pyChoose (n : Int) (k : Int)) ∧
    (∀ n : Nat, n ≤ 52 → pyChoose (n : Int) 0 = some 1) := by
  refine ⟨?_, ?_, ?_, ?_⟩
  · intro n k h
    unfold pyChoose
    rw [if_pos h]
  · intro n k hk hkn
    rw [pyChoose_eq_of_nonneg n k hk, chooseI_eq_choose_toNat hk hkn]
  · intro n k _ hkn
    rw [pyChoose_natCast, pyChoose_natCast, chooseN_eq, chooseN_eq,
      Nat.choose_symm hkn]
  · intro n _
    have h0 : ((0 : Nat) : Int) = (0 : Int) := rfl
    rw [← h0, pyChoose_natCast, chooseN_eq, Nat.choose_zero_right]
    rfl

/-- Witness for claim C7 at concrete inputs. -/
theorem claim_C7_witness :
    pyChoose (-5) 3 = some 0 ∧
    pyChoose 5 2 = some 10 ∧
    pyChoose (52 : Nat) (((52 - 13 : Nat) : Nat) : Int) = pyChoose (52 : Nat) ((13 : Nat) : Int) ∧
    pyChoose (52 : Nat) 0 = some 1 :=
  ⟨claim_C7_choose_correct.1 (-5) 3 (by decide),
   by rw [claim_C7_choose_correct.2.1 5 2 (by decide) (by decide)]; decide,
   claim_C7_choose_correct.2.2.1 52 13 (by decide) (by decide),
   claim_C7_choose_correct.2.2.2 52 (by decide)⟩

/-- Claim C9, counterexample: `choose(1, -1)` raises `ValueError` (factorial
of a negative int) instead of returning an integer. -/
theorem claim_C9_counterexample : pyChoose 1 (-1) = none := by decide

/-- Claim C9, amended: `choose(n, k)` returns an integer without raising
exactly when `0 ≤ k` or `n < k`; for `k < 0 ≤ n - k` (i.e. `k ≤ n ∧ k < 0`)
it raises `ValueError` from `math.factorial`. -/
theorem claim_C9_amended :
    ∀ n k : Int, (∃ r : Int, pyChoose n k = some r) ↔ (0 ≤ k ∨ n < k) := by
  intro n k
  constructor
  · rintro ⟨r, hr⟩
    by_contra hcon
    push_neg at hcon
    have hnone : pyChoose n k = none := (pyChoose_none_iff n k).mpr (by omega)
    rw [hnone] at hr
    cases hr
  · intro h
    by_cases hk : 0 ≤ k
    · exact ⟨_, pyChoose_eq_of_nonneg n k hk⟩
    · have hlt : n < k := by omega
      exact ⟨0, by unfold pyChoose; rw [if_pos hlt]⟩

/-- Claim C5, counterexample: `seq(3, 3, 2)` — the index 3 = choose(3,2) is
one past the valid range — is not rejected: the walk runs and returns `[1, 2]`. -/
theorem claim_C5_counterexample : chooseN 3 2 = 3 ∧ seqPy 3 3 2 = [1, 2] := by decide

/-- Claim C5, amended: `seq` performs no bounds check at all (for `0 ≤ l` it
cannot raise); an out-of-range index enters the walk and silently yields a
sequence of the requested length that is not a preimage of the given rank:
`seq(3,3,2) = [1,2]`, whose rank is 2, not 3. -/
theorem claim_C5_amended :
    chooseN 3 2 = 3 ∧ seqPy 3 3 2 = [1, 2] ∧ indexI [1, 2] = 2 := by decide

/-- Claim C8: the three concrete `choose` values; for the partition
g0 = {39..51}, g1 = {26..38}, g2 = {13..25}, g3 = {0..12} the three per-group
ranks are the per-domain maxima `choose(52,13)-1`, `choose(39,13)-1`,
`choose(26,13)-1` (here each group is already expressed in its reduced
coordinates, so its rank is `index` of the group itself), and the composite
index is `choose(52,13)*choose(39,13)*choose(26,13) - 1`, the maximum. -/
theorem claim_C8_concrete_values :
    chooseN 52 13 = 635013559600 ∧
    chooseN 39 13 = 8122425444 ∧
    chooseN 26 13 = 10400600 ∧
    indexI (toInts (List.range' 39 13)) = (chooseN 52 13 : Int) - 1 ∧
    indexI (toInts (List.range' 26 13)) = (chooseN 39 13 : Int) - 1 ∧
    indexI (toInts (List.range' 13 13)) = (chooseN 26 13 : Int) - 1 ∧
    index52_13 [toInts (List.range' 39 13), toInts (List.range' 26 13),
        toInts (List.range' 13 13), toInts (List.range 13)] =
      some ((chooseN 52 13 * chooseN 39 13 * chooseN 26 13 - 1 : Nat) : Int) := by
  decide

/-- Claim C4, counterexample: `seq52_13(-1)` is not rejected with an error:
the floor `divmod` wraps the negative index and a full 4-group partition is
returned. -/
theorem claim_C4_counterexample :
    seq52_13 (-1) = some [toInts (List.range 13), toInts (List.range' 39 13),
      toInts (List.range' 26 13), toInts (List.range' 13 13)] := by
  decide

/-- Claim C4, amended: `seq52_13` performs no validation of its argument
before computing.  `compositeIndex = -1` is accepted outright and returns a
partition; `compositeIndex = choose(52,13)*choose(39,13)*choose(26,13)` does
abort, but only through the trailing group-size assertion after the walks
have run. -/
theorem claim_C4_amended :
    seq52_13 (-1) = some [toInts (List.range 13), toInts (List.range' 39 13),
      toInts (List.range' 26 13), toInts (List.range' 13 13)] ∧
    seq52_13 ((chooseN 52 13 * chooseN 39 13 * chooseN 26 13 : Nat) : Int) = none := by
  constructor
  · decide
  · decide

/-- Claim C6, counterexample: first three groups that overlap (the value 0
occurs in both group 0 and group 1) raise no error: every assertion passes
and an index is returned. -/
theorem claim_C6_counterexample :
    index52_13 [toInts (List.range 13), (0 : Int) :: toInts (List.range' 13 12),
      toInts (List.range' 25 13)] = some 54086110172499 := by
  decide

/-- Claim C6, amended: `index52_13` asserts the group count (3 or 4), the
exact size 13 of every supplied group, and the value range `[0, 52)`, raising
on violation, but it never checks that the first three groups are pairwise
disjoint: an overlapping triple can pass every assertion and yield an index. -/
theorem claim_C6_amended :
    (∀ sets : List (List Int), ¬(sets.length = 3 ∨ sets.length = 4) →
      index52_13 sets = none) ∧
    (∀ sets : List (List Int), ¬(∀ s ∈ sets, s.length = 13) →
      index52_13 sets = none) ∧
    (∀ sets : List (List Int), (∀ s ∈ sets, s.length = 13) →
      ¬(∀ s ∈ sets, 0 ≤ pyMin s ∧ pyMax s < 52) → index52_13 sets = none) ∧
    index52_13 [toInts (List.range 13), (0 : Int) :: toInts (List.range' 13 12),
      toInts (List.range' 25 13)] = some 54086110172499 := by
  refine ⟨?_, ?_, ?_, by decide⟩
  · intro sets h
    unfold index52_13
    rw [if_pos h]
  · intro sets h
    unfold index52_13
    by_cases h1 : ¬(sets.length = 3 ∨ sets.length = 4)
    · rw [if_pos h1]
    · rw [if_neg h1, if_pos h]
  · intro sets hlen h
    unfold index52_13
    by_cases h1 : ¬(sets.length = 3 ∨ sets.length = 4)
    · rw [if_pos h1]
    · rw [if_neg h1, if_neg (not_not_intro hlen), if_pos h]

/-- Witness for claim C6: the three kinds of assertion failure at concrete
inputs (wrong group count; a wrong-sized group; a value outside [0, 52)). -/
theorem claim_C6_witness :
    index52_13 [] = none ∧
    index52_13 [[(0 : Int)], [(1 : Int)], [(2 : Int)]] = none ∧
    index52_13 [toInts (List.range 13), toInts (List.range' 13 13),
      toInts (List.range' 40 13)] = none :=
  ⟨claim_C6_amended.1 [] (by decide),
   claim_C6_amended.2.1 [[(0 : Int)], [(1 : Int)], [(2 : Int)]] (by decide),
   claim_C6_amended.2.2.1 [toInts (List.range 13), toInts (List.range' 13 13),
      toInts (List.range' 40 13)] (by decide) (by decide)⟩

/-- Claim C10: `index52_13` is insensitive to the element order inside each
supplied group — permuting the elements of every group list (3 or 4 groups
supplied) leaves the computed composite index unchanged, because the
implementation sorts fresh copies of each ranked group and only reads the
caller's lists. -/
theorem claim_C10_perm_insensitive :
    (∀ g0 g1 g2 g3 g0' g1' g2' g3' : List Int,
      g0.Perm g0' → g1.Perm g1' → g2.Perm g2' → g3.Perm g3' →
      index52_13 [g0, g1, g2, g3] = index52_13 [g0', g1', g2', g3']) ∧
    (∀ g0 g1 g2 g0' g1' g2' : List Int,
      g0.Perm g0' → g1.Perm g1' → g2.Perm g2' →
      index52_13 [g0, g1, g2] = index52_13 [g0', g1', g2']) := by
  constructor
  · intro g0 g1 g2 g3 g0' g1' g2' g3' h0 h1 h2 h3
    have e0 : ([g0, g1, g2, g3] : List (List Int)).getD 0 [] = g0 := rfl
    have e1 : ([g0, g1, g2, g3] : List (List Int)).getD 1 [] = g1 := rfl
    have e2 : ([g0, g1, g2, g3] : List (List Int)).getD 2 [] = g2 := rfl
    have e0' : ([g0', g1', g2', g3'] : List (List Int)).getD 0 [] = g0' := rfl
    have e1' : ([g0', g1', g2', g3'] : List (List Int)).getD 1 [] = g1' := rfl
    have e2' : ([g0', g1', g2', g3'] : List (List Int)).getD 2 [] = g2' := rfl
    unfold index52_13
    rw [e0, e1, e2, e0', e1', e2']
    simp only [List.length_cons, List.length_nil, List.forall_mem_cons,
      List.forall_mem_nil, h0.length_eq, h1.length_eq, h2.length_eq, h3.length_eq,
      pyMin_perm h0, pyMin_perm h1, pyMin_perm h2, pyMin_perm h3,
      pyMax_perm h0, pyMax_perm h1, pyMax_perm h2, pyMax_perm h3,
      sortedPy_congr h0, sortedPy_congr h1, sortedPy_congr h2]
  · intro g0 g1 g2 g0' g1' g2' h0 h1 h2
    have e0 : ([g0, g1, g2] : List (List Int)).getD 0 [] = g0 := rfl
    have e1 : ([g0, g1, g2] : List (List Int)).getD 1 [] = g1 := rfl
    have e2 : ([g0, g1, g2] : List (List Int)).getD 2 [] = g2 := rfl
    have e0' : ([g0', g1', g2'] : List (List Int)).getD 0 [] = g0' := rfl
    have e1' : ([g0', g1', g2'] : List (List Int)).getD 1 [] = g1' := rfl
    have e2' : ([g0', g1', g2'] : List (List Int)).getD 2 [] = g2' := rfl
    unfold index52_13
    rw [e0, e1, e2, e0', e1', e2']
    simp only [List.length_cons, List.length_nil, List.forall_mem_cons,
      List.forall_mem_nil, h0.length_eq, h1.length_eq, h2.length_eq,
      pyMin_perm h0, pyMin_perm h1, pyMin_perm h2,
      pyMax_perm h0, pyMax_perm h1, pyMax_perm h2,
      sortedPy_congr h0, sortedPy_congr h1, sortedPy_congr h2]

/-! ## Counting lemmas for the two classification loops -/

theorem cntLt_cons_lt {x : Nat} (t : List Nat) {e : Nat} (h : x < e) :
    cntLt (x :: t) e = cntLt t e + 1 := by
  unfold cntLt
  rw [List.filter_cons, if_pos (by simpa using h)]
  simp

theorem cntLt_cons_ge {x : Nat} (t : List Nat) {e : Nat} (h : ¬(x < e)) :
    cntLt (x :: t) e = cntLt t e := by
  unfold cntLt
  rw [List.filter_cons, if_neg (by simpa using h)]

theorem cntLt_of_forall_gt {t : List Nat} {e : Nat} (h : ∀ y ∈ t, e < y) :
    cntLt t e = 0 := by
  unfold cntLt
  rw [List.length_eq_zero, List.filter_eq_nil_iff]
  intro a ha
  simp only [decide_eq_true_eq]
  have := h a ha
  omega

theorem cntLt_zero (L : List Nat) : cntLt L 0 = 0 := by
  unfold cntLt
  rw [List.length_eq_zero, List.filter_eq_nil_iff]
  intro a _
  simp

theorem cntLt_le_length (L : List Nat) (v : Nat) : cntLt L v ≤ L.length :=
  List.length_filter_le _ _

theorem cntLt_succ_count (L : List Nat) (e : Nat) :
    cntLt L (e + 1) = cntLt L e + L.count e := by
  induction L with
  | nil => rfl
  | cons x t ih =>
    rw [List.count_cons]
    rcases Nat.lt_trichotomy x e with hlt | heq | hgt
    · rw [cntLt_cons_lt t (by omega), cntLt_cons_lt t hlt, if_neg (by simp; omega)]
      omega
    · subst heq
      rw [cntLt_cons_lt t (by omega), cntLt_cons_ge t (by omega), if_pos (by simp)]
      omega
    · rw [cntLt_cons_ge t (by omega), cntLt_cons_ge t (by omega), if_neg (by simp; omega)]
      omega

theorem cntLt_succ {L : List Nat} (hnd : L.Nodup) (e : Nat) :
    cntLt L (e + 1) = cntLt L e + (if e ∈ L then 1 else 0) := by
  rw [cntLt_succ_count]
  by_cases h : e ∈ L
  · rw [if_pos h, List.count_eq_one_of_mem hnd h]
  · rw [if_neg h, List.count_eq_zero_of_not_mem h]

theorem cntLt_step {L : List Nat} (hnd : L.Nodup) (e : Nat) :
    cntLt L (e + 1) ≤ cntLt L e + 1 := by
  rw [cntLt_succ hnd]
  split <;> omega

theorem getD_cntLt_mem {L : List Nat} (hpw : List.Pairwise (· < ·) L) {e : Nat}
    (he : e ∈ L) : cntLt L e < L.length ∧ L.getD (cntLt L e) 0 = e := by
  induction L with
  | nil => simp at he
  | cons x t ih =>
    have hxt : ∀ y ∈ t, x < y := (List.pairwise_cons.mp hpw).1
    have hpt := (List.pairwise_cons.mp hpw).2
    rcases List.mem_cons.mp he with rfl | het
    · have h0 : cntLt (e :: t) e = 0 := by
        rw [cntLt_cons_ge t (by omega)]
        exact cntLt_of_forall_gt hxt
      rw [h0]
      simp
    · have hxe : x < e := hxt e het
      rcases ih hpt het with ⟨ih1, ih2⟩
      rw [cntLt_cons_lt t hxe]
      refine ⟨by simp only [List.length_cons]; omega, ?_⟩
      rw [List.getD_cons_succ]
      exact ih2

theorem getD_cntLt_not_mem {L : List Nat} (hpw : List.Pairwise (· < ·) L) {e : Nat}
    (he : e ∉ L) (hlt : cntLt L e < L.length) : e < L.getD (cntLt L e) 0 := by
  induction L with
  | nil => simp at hlt
  | cons x t ih =>
    have hxt : ∀ y ∈ t, x < y := (List.pairwise_cons.mp hpw).1
    have hpt := (List.pairwise_cons.mp hpw).2
    have hex : e ≠ x := fun h => he (h ▸ List.mem_cons_self _ _)
    rcases Nat.lt_or_ge x e with hxe | hxe
    · rw [cntLt_cons_lt t hxe] at hlt ⊢
      rw [List.getD_cons_succ]
      exact ih hpt (fun h => he (List.mem_cons_of_mem _ h))
        (by simpa using hlt)
    · have hgt : e < x := by omega
      have h0 : cntLt (x :: t) e = 0 := by
        rw [cntLt_cons_ge t (by omega)]
        exact cntLt_of_forall_gt (fun y hy => lt_trans hgt (hxt y hy))
      rw [h0, List.getD_cons_zero]
      exact hgt

theorem nodup_lt_length_le {L : List Nat} (hnd : L.Nodup) {v : Nat}
    (hbd : ∀ x ∈ L, x < v) : L.length ≤ v := by
  have h1 : L.toFinset ⊆ Finset.range v := fun x hx =>
    Finset.mem_range.mpr (hbd x (List.mem_toFinset.mp hx))
  have h2 := Finset.card_le_card h1
  rwa [List.toFinset_card_of_nodup hnd, Finset.card_range] at h2

theorem nodup_Ioo_length_le {L : List Nat} (hnd : L.Nodup) {lo hi : Nat}
    (hbd : ∀ x ∈ L, lo < x ∧ x < hi) : L.length ≤ hi - lo - 1 := by
  have h1 : L.toFinset ⊆ Finset.Ioo lo hi := fun x hx => by
    rcases hbd x (List.mem_toFinset.mp hx) with ⟨h1, h2⟩
    exact Finset.mem_Ioo.mpr ⟨h1, h2⟩
  have h2 := Finset.card_le_card h1
  rwa [List.toFinset_card_of_nodup hnd, Nat.card_Ioo] at h2

theorem cntLt_le_self {L : List Nat} (hnd : L.Nodup) (v : Nat) : cntLt L v ≤ v := by
  unfold cntLt
  refine nodup_lt_length_le (hnd.filter _) ?_
  intro x hx
  have := List.of_mem_filter hx
  simpa using this

theorem length_filter_split (L : List Nat) (p : Nat → Bool) :
    (L.filter p).length + (L.filter (fun a => !(p a))).length = L.length := by
  induction L with
  | nil => rfl
  | cons x t ih =>
    rw [List.filter_cons, List.filter_cons]
    by_cases h : p x
    · rw [if_pos h, if_neg (by simp [h])]
      simp only [List.length_cons]
      omega
    · rw [if_neg h, if_pos (by simp [h])]
      simp only [List.length_cons]
      omega

theorem sub_count_mono (f : Nat → Nat) (hstep : ∀ e, f (e + 1) ≤ f e + 1) :
    ∀ {u v : Nat}, u ≤ v → u - f u ≤ v - f v := by
  intro u v h
  induction v with
  | zero =>
    have : u = 0 := by omega
    subst this
    exact le_refl _
  | succ v ih =>
    rcases Nat.lt_or_ge u (v + 1) with h1 | h1
    · have h2 := ih (by omega)
      have h3 := hstep v
      omega
    · have : u = v + 1 := by omega
      subst this
      exact le_refl _

theorem cntLt_append (A B : List Nat) (e : Nat) :
    cntLt (A ++ B) e = cntLt A e + cntLt B e := by
  unfold cntLt
  rw [List.filter_append, List.length_append]

theorem pw_nodup {L : List Nat} (h : List.Pairwise (· < ·) L) : L.Nodup :=
  h.imp (fun hab => Nat.ne_of_lt hab)

/-! ## Access lemmas for the mixed loop states -/

theorem toInts_getD (L : List Nat) (i : Nat) :
    (toInts L).getD i 0 = ((L.getD i 0 : Nat) : Int) := by
  unfold toInts
  have h := List.getD_map L 0 (n := i) (fun x : Nat => (x : Int))
  simpa using h

theorem compress1_length (A B : List Nat) : (compress1 A B).length = B.length :=
  List.length_map _ _

theorem compress2_length (A B C : List Nat) : (compress2 A B C).length = C.length :=
  List.length_map _ _

theorem compress1_getD (A B : List Nat) (i : Nat) :
    (compress1 A B).getD i 0 = B.getD i 0 - cntLt A (B.getD i 0) := by
  unfold compress1
  have h := List.getD_map B 0 (n := i) (fun y => y - cntLt A y)
  simpa using h

theorem compress2_getD (A B C : List Nat) (i : Nat) :
    (compress2 A B C).getD i 0
      = C.getD i 0 - (cntLt A (C.getD i 0) + cntLt B (C.getD i 0)) := by
  unfold compress2
  have h := List.getD_map C 0 (n := i) (fun z => z - (cntLt A z + cntLt B z))
  simpa using h

theorem midQ_zero (old new : List Int) : midQ old new 0 = old := by
  simp [midQ]

theorem midQ_full {old new : List Int} (hlen : new.length = old.length) {b : Nat}
    (hb : old.length ≤ b) : midQ old new b = new := by
  unfold midQ
  rw [List.take_of_length_le (by omega), List.drop_eq_nil_of_le (by omega),
    List.append_nil]

theorem midQ_getD {old new : List Int} (hlen : new.length = old.length) {b : Nat}
    (hb : b < old.length) : (midQ old new b).getD b 0 = old.getD b 0 := by
  unfold midQ
  have ht : (new.take b).length = b := by rw [List.length_take]; omega
  rw [List.getD_eq_getElem?_getD, List.getD_eq_getElem?_getD,
    List.getElem?_append_right (by omega), ht, Nat.sub_self, List.getElem?_drop]
  norm_num

theorem midQ_set {old new : List Int} (hlen : new.length = old.length) {b : Nat}
    (hb : b < old.length) :
    (midQ old new b).set b (new.getD b 0) = midQ old new (b + 1) := by
  unfold midQ
  have ht : (new.take b).length = b := by rw [List.length_take]; omega
  have hnb : b < new.length := by omega
  rw [List.set_append, if_neg (by omega), ht, Nat.sub_self,
    List.drop_eq_getElem_cons hb, List.set_cons_zero]
  have htake : List.take (b + 1) new = List.take b new ++ [new[b]] := by
    rw [List.take_succ, List.getElem?_eq_getElem hnb]
    rfl
  have hgetD : new.getD b 0 = new[b] := by
    rw [List.getD_eq_getElem?_getD, List.getElem?_eq_getElem hnb]
    rfl
  rw [htake, hgetD, List.append_assoc, List.singleton_append]

/-! ## The classification loop of `index52_13` -/

theorem ixFold {A B C : List Nat}
    (hA : List.Pairwise (· < ·) A) (hB : List.Pairwise (· < ·) B)
    (hC : List.Pairwise (· < ·) C)
    (hAlen : A.length = 13) (hBlen : B.length = 13) (hClen : C.length = 13)
    (hAB : ∀ x ∈ A, x ∉ B) (hAC : ∀ x ∈ A, x ∉ C) (hBC : ∀ x ∈ B, x ∉ C) :
    ∀ e : Nat,
    (List.range e).foldl (ixStep (toInts A)) (toInts B, toInts C, 0, 0, 0)
      = (midQ (toInts B) (toInts (compress1 A B)) (cntLt B e),
         midQ (toInts C) (toInts (compress2 A B C)) (cntLt C e),
         cntLt A e, cntLt B e, cntLt C e) := by
  have hlenB : (toInts (compress1 A B)).length = (toInts B).length := by
    rw [toInts_length, toInts_length, compress1_length]
  have hlenC : (toInts (compress2 A B C)).length = (toInts C).length := by
    rw [toInts_length, toInts_length, compress2_length]
  have hBi : (toInts B).length = 13 := by rw [toInts_length, hBlen]
  have hCi : (toInts C).length = 13 := by rw [toInts_length, hClen]
  intro e
  induction e with
  | zero =>
    rw [cntLt_zero, cntLt_zero, cntLt_zero, midQ_zero, midQ_zero]
    rfl
  | succ e ih =>
    rw [List.range_succ, List.foldl_concat, ih]
    unfold ixStep
    by_cases heA : e ∈ A
    · have hguard : cntLt A e < 13 ∧ (toInts A).getD (cntLt A e) 0 = (e : Int) := by
        rcases getD_cntLt_mem hA heA with ⟨h1, h2⟩
        exact ⟨by omega, by rw [toInts_getD, h2]⟩
      have heB : e ∉ B := fun h => hAB e heA h
      have heC : e ∉ C := hAC e heA
      simp only [if_pos hguard]
      simp [cntLt_succ (pw_nodup hA) e, cntLt_succ (pw_nodup hB) e,
        cntLt_succ (pw_nodup hC) e, heA, heB, heC]
    · have hAguardF : ¬(cntLt A e < 13 ∧ (toInts A).getD (cntLt A e) 0 = (e : Int)) := by
        rintro ⟨h1, h2⟩
        rw [toInts_getD] at h2
        have h3 : A.getD (cntLt A e) 0 = e := by exact_mod_cast h2
        have h4 := getD_cntLt_not_mem hA heA (by omega)
        omega
      by_cases heB : e ∈ B
      · rcases getD_cntLt_mem hB heB with ⟨hb1, hb2⟩
        have hb1' : cntLt B e < 13 := by omega
        have hmid : (midQ (toInts B) (toInts (compress1 A B)) (cntLt B e)).getD
            (cntLt B e) 0 = (e : Int) := by
          rw [midQ_getD hlenB (by omega), toInts_getD, hb2]
        have hBguard : cntLt B e < 13 ∧ (midQ (toInts B) (toInts (compress1 A B))
            (cntLt B e)).getD (cntLt B e) 0 = (e : Int) := ⟨hb1', hmid⟩
        have hval : (toInts (compress1 A B)).getD (cntLt B e) 0
            = (e : Int) - (cntLt A e : Int) := by
          rw [toInts_getD, compress1_getD, hb2,
            Nat.cast_sub (cntLt_le_self (pw_nodup hA) e)]
        have heC : e ∉ C := hBC e heB
        simp only [if_neg hAguardF, if_pos hBguard]
        rw [hmid, ← hval, midQ_set hlenB (by omega)]
        simp [cntLt_succ (pw_nodup hA) e, cntLt_succ (pw_nodup hB) e,
          cntLt_succ (pw_nodup hC) e, heA, heB, heC]
      · have hBguardF : ¬(cntLt B e < 13 ∧ (midQ (toInts B) (toInts (compress1 A B))
            (cntLt B e)).getD (cntLt B e) 0 = (e : Int)) := by
          rintro ⟨h1, h2⟩
          rw [midQ_getD hlenB (by omega), toInts_getD] at h2
          have h3 : B.getD (cntLt B e) 0 = e := by exact_mod_cast h2
          have h4 := getD_cntLt_not_mem hB heB (by omega)
          omega
        by_cases heC : e ∈ C
        · rcases getD_cntLt_mem hC heC with ⟨hc1, hc2⟩
          have hc1' : cntLt C e < 13 := by omega
          have hmid : (midQ (toInts C) (toInts (compress2 A B C)) (cntLt C e)).getD
              (cntLt C e) 0 = (e : Int) := by
            rw [midQ_getD hlenC (by omega), toInts_getD, hc2]
          have hCguard : cntLt C e < 13 ∧ (midQ (toInts C) (toInts (compress2 A B C))
              (cntLt C e)).getD (cntLt C e) 0 = (e : Int) := ⟨hc1', hmid⟩
          have hcnt2 : cntLt A e + cntLt B e ≤ e := by
            have h1 : cntLt (A ++ B) e ≤ e := cntLt_le_self
              ((pw_nodup hA).append (pw_nodup hB) (List.disjoint_left.mpr hAB)) e
            rwa [cntLt_append] at h1
          have hval : (toInts (compress2 A B C)).getD (cntLt C e) 0
              = (e : Int) - ((cntLt A e : Int) + (cntLt B e : Int)) := by
            rw [toInts_getD, compress2_getD, hc2, Nat.cast_sub hcnt2]
            push_cast
            ring
          simp only [if_neg hAguardF, if_neg hBguardF, if_pos hCguard]
          rw [hmid, ← hval, midQ_set hlenC (by omega)]
          simp [cntLt_succ (pw_nodup hA) e, cntLt_succ (pw_nodup hB) e,
            cntLt_succ (pw_nodup hC) e, heA, heB, heC]
        · have hCguardF : ¬(cntLt C e < 13 ∧ (midQ (toInts C) (toInts (compress2 A B C))
              (cntLt C e)).getD (cntLt C e) 0 = (e : Int)) := by
            rintro ⟨h1, h2⟩
            rw [midQ_getD hlenC (by omega), toInts_getD] at h2
            have h3 : C.getD (cntLt C e) 0 = e := by exact_mod_cast h2
            have h4 := getD_cntLt_not_mem hC heC (by omega)
            omega
          simp only [if_neg hAguardF, if_neg hBguardF, if_neg hCguardF]
          simp [cntLt_succ (pw_nodup hA) e, cntLt_succ (pw_nodup hB) e,
            cntLt_succ (pw_nodup hC) e, heA, heB, heC]

/-! ## The re-expansion loop of `seq52_13` -/

theorem cnt_gap {L : List Nat} (hnd : L.Nodup) {e w : Nat} (he : e ∉ L) (hw : e < w) :
    e - cntLt L e < w - cntLt L w := by
  have hmono := sub_count_mono (cntLt L) (cntLt_step hnd) (u := e + 1) (v := w) (by omega)
  have hsucc : cntLt L (e + 1) = cntLt L e := by
    rw [cntLt_succ hnd e, if_neg he]
    omega
  have hle := cntLt_le_self hnd e
  omega

theorem complList_succ_mem {A B C : List Nat} {e : Nat}
    (h : e ∈ A ∨ e ∈ B ∨ e ∈ C) :
    complList A B C (e + 1) = complList A B C e := by
  unfold complList
  rw [List.range_succ, List.filter_append, List.filter_singleton]
  have hdec : decide (e ∉ A ∧ e ∉ B ∧ e ∉ C) = false := by
    simp only [decide_eq_false_iff_not]
    tauto
  rw [hdec, Bool.cond_false, List.append_nil]

theorem complList_succ_not_mem {A B C : List Nat} {e : Nat}
    (h1 : e ∉ A) (h2 : e ∉ B) (h3 : e ∉ C) :
    complList A B C (e + 1) = complList A B C e ++ [e] := by
  unfold complList
  rw [List.range_succ, List.filter_append, List.filter_singleton]
  have hdec : decide (e ∉ A ∧ e ∉ B ∧ e ∉ C) = true := by
    simp [h1, h2, h3]
  rw [hdec, Bool.cond_true]

theorem expFold {A B C : List Nat}
    (hA : List.Pairwise (· < ·) A) (hB : List.Pairwise (· < ·) B)
    (hC : List.Pairwise (· < ·) C)
    (hAlen : A.length = 13) (hBlen : B.length = 13) (hClen : C.length = 13)
    (hAB : ∀ x ∈ A, x ∉ B) (hAC : ∀ x ∈ A, x ∉ C) (hBC : ∀ x ∈ B, x ∉ C) :
    ∀ e : Nat,
    (List.range e).foldl (expStep (toInts A))
        (toInts (compress1 A B), toInts (compress2 A B C), [], 0, 0, 0)
      = (midQ (toInts (compress1 A B)) (toInts B) (cntLt B e),
         midQ (toInts (compress2 A B C)) (toInts C) (cntLt C e),
         toInts (complList A B C e),
         cntLt A e, cntLt B e, cntLt C e) := by
  have hndAB : (A ++ B).Nodup :=
    (pw_nodup hA).append (pw_nodup hB) (List.disjoint_left.mpr hAB)
  have hlenB : (toInts B).length = (toInts (compress1 A B)).length := by
    rw [toInts_length, toInts_length, compress1_length]
  have hlenC : (toInts C).length = (toInts (compress2 A B C)).length := by
    rw [toInts_length, toInts_length, compress2_length]
  have hcmp2 : ∀ i : Nat, (toInts (compress2 A B C)).getD i 0
      = ((C.getD i 0 - cntLt (A ++ B) (C.getD i 0) : Nat) : Int) := by
    intro i
    rw [toInts_getD, compress2_getD, cntLt_append]
  intro e
  induction e with
  | zero =>
    rw [cntLt_zero, cntLt_zero, cntLt_zero, midQ_zero, midQ_zero]
    rfl
  | succ e ih =>
    rw [List.range_succ, List.foldl_concat, ih]
    unfold expStep
    by_cases heA : e ∈ A
    · have hguard : cntLt A e < 13 ∧ (toInts A).getD (cntLt A e) 0 = (e : Int) := by
        rcases getD_cntLt_mem hA heA with ⟨h1, h2⟩
        exact ⟨by omega, by rw [toInts_getD, h2]⟩
      have heB : e ∉ B := hAB e heA
      have heC : e ∉ C := hAC e heA
      simp only [if_pos hguard]
      rw [complList_succ_mem (Or.inl heA)]
      simp [cntLt_succ (pw_nodup hA) e, cntLt_succ (pw_nodup hB) e,
        cntLt_succ (pw_nodup hC) e, heA, heB, heC]
    · have hAguardF : ¬(cntLt A e < 13 ∧ (toInts A).getD (cntLt A e) 0 = (e : Int)) := by
        rintro ⟨h1, h2⟩
        rw [toInts_getD] at h2
        have h3 : A.getD (cntLt A e) 0 = e := by exact_mod_cast h2
        have h4 := getD_cntLt_not_mem hA heA (by omega)
        omega
      have hcastA : ((e - cntLt A e : Nat) : Int) = (e : Int) - (cntLt A e : Int) :=
        Nat.cast_sub (cntLt_le_self (pw_nodup hA) e)
      by_cases heB : e ∈ B
      · rcases getD_cntLt_mem hB heB with ⟨hb1, hb2⟩
        have hb1' : cntLt B e < 13 := by rw [hBlen] at hb1; exact hb1
        have hmid : (midQ (toInts (compress1 A B)) (toInts B) (cntLt B e)).getD
            (cntLt B e) 0 = (e : Int) - (cntLt A e : Int) := by
          rw [midQ_getD hlenB (by rw [toInts_length, compress1_length]; omega),
            toInts_getD, compress1_getD, hb2, hcastA]
        have hBguard : cntLt B e < 13 ∧ (midQ (toInts (compress1 A B)) (toInts B)
            (cntLt B e)).getD (cntLt B e) 0 = (e : Int) - (cntLt A e : Int) :=
          ⟨hb1', hmid⟩
        have hval : (toInts B).getD (cntLt B e) 0 = (e : Int) := by
          rw [toInts_getD, hb2]
        have heC : e ∉ C := hBC e heB
        simp only [if_neg hAguardF, if_pos hBguard]
        rw [← hval, midQ_set hlenB (by rw [toInts_length, compress1_length]; omega)]
        rw [complList_succ_mem (Or.inr (Or.inl heB))]
        simp [cntLt_succ (pw_nodup hA) e, cntLt_succ (pw_nodup hB) e,
          cntLt_succ (pw_nodup hC) e, heA, heB, heC]
      · have hBguardF : ¬(cntLt B e < 13 ∧ (midQ (toInts (compress1 A B)) (toInts B)
            (cntLt B e)).getD (cntLt B e) 0 = (e : Int) - (cntLt A e : Int)) := by
          rintro ⟨h1, h2⟩
          rw [midQ_getD hlenB (by rw [toInts_length, compress1_length]; omega),
            toInts_getD, compress1_getD] at h2
          set w := B.getD (cntLt B e) 0 with hw
          have hgt : e < w := getD_cntLt_not_mem hB heB (by omega)
          have hgap : e - cntLt A e < w - cntLt A w :=
            cnt_gap (pw_nodup hA) heA hgt
          rw [← hcastA] at h2
          have h3 : w - cntLt A w = e - cntLt A e := by exact_mod_cast h2
          omega
        by_cases heC : e ∈ C
        · rcases getD_cntLt_mem hC heC with ⟨hc1, hc2⟩
          have hc1' : cntLt C e < 13 := by rw [hClen] at hc1; exact hc1
          have hcnt2 : cntLt (A ++ B) e ≤ e := cntLt_le_self hndAB e
          have hcast2 : ((e - cntLt (A ++ B) e : Nat) : Int)
              = (e : Int) - (cntLt A e : Int) - (cntLt B e : Int) := by
            rw [Nat.cast_sub hcnt2, cntLt_append]
            push_cast
            ring
          have hmid : (midQ (toInts (compress2 A B C)) (toInts C) (cntLt C e)).getD
              (cntLt C e) 0 = (e : Int) - (cntLt A e : Int) - (cntLt B e : Int) := by
            rw [midQ_getD hlenC (by rw [toInts_length, compress2_length]; omega),
              hcmp2, hc2, hcast2]
          have hCguard : cntLt C e < 13 ∧ (midQ (toInts (compress2 A B C)) (toInts C)
              (cntLt C e)).getD (cntLt C e) 0
                = (e : Int) - (cntLt A e : Int) - (cntLt B e : Int) := ⟨hc1', hmid⟩
          have hval : (toInts C).getD (cntLt C e) 0 = (e : Int) := by
            rw [toInts_getD, hc2]
          simp only [if_neg hAguardF, if_neg hBguardF, if_pos hCguard]
          rw [← hval, midQ_set hlenC (by rw [toInts_length, compress2_length]; omega)]
          rw [complList_succ_mem (Or.inr (Or.inr heC))]
          simp [cntLt_succ (pw_nodup hA) e, cntLt_succ (pw_nodup hB) e,
            cntLt_succ (pw_nodup hC) e, heA, heB, heC]
        · have hCguardF : ¬(cntLt C e < 13 ∧ (midQ (toInts (compress2 A B C)) (toInts C)
              (cntLt C e)).getD (cntLt C e) 0
                = (e : Int) - (cntLt A e : Int) - (cntLt B e : Int)) := by
            rintro ⟨h1, h2⟩
            rw [midQ_getD hlenC (by rw [toInts_length, compress2_length]; omega),
              hcmp2] at h2
            set z := C.getD (cntLt C e) 0 with hz
            have hgt : e < z := getD_cntLt_not_mem hC heC (by omega)
            have heAB : e ∉ A ++ B := by
              rw [List.mem_append]
              rintro (h | h)
              · exact heA h
              · exact heB h
            have hgap : e - cntLt (A ++ B) e < z - cntLt (A ++ B) z :=
              cnt_gap hndAB heAB hgt
            have hcnt2 : cntLt (A ++ B) e ≤ e := cntLt_le_self hndAB e
            have hcast2 : ((e - cntLt (A ++ B) e : Nat) : Int)
                = (e : Int) - (cntLt A e : Int) - (cntLt B e : Int) := by
              rw [Nat.cast_sub hcnt2, cntLt_append]
              push_cast
              ring
            rw [← hcast2] at h2
            have h3 : z - cntLt (A ++ B) z = e - cntLt (A ++ B) e := by exact_mod_cast h2
            omega
          simp only [if_neg hAguardF, if_neg hBguardF, if_neg hCguardF]
          rw [complList_succ_not_mem heA heB heC, toInts_append]
          simp [cntLt_succ (pw_nodup hA) e, cntLt_succ (pw_nodup hB) e,
            cntLt_succ (pw_nodup hC) e, heA, heB, heC, toInts]

/-! ## Properties of the compressed groups and of the complement -/

theorem cntLt_all {L : List Nat} {v : Nat} (hbd : ∀ x ∈ L, x < v) :
    cntLt L v = L.length := by
  unfold cntLt
  rw [List.filter_eq_self.mpr]
  intro a ha
  simpa using hbd a ha

theorem compress1_chain {A B : List Nat} (hA : List.Pairwise (· < ·) A)
    (hB : List.Pairwise (· < ·) B) (hAB : ∀ x ∈ A, x ∉ B) :
    List.Chain' (· < ·) (compress1 A B) := by
  unfold compress1
  rw [List.chain'_map]
  apply List.Pairwise.chain'
  have h := List.Pairwise.and_mem.mp hB
  exact h.imp (fun hand =>
    cnt_gap (pw_nodup hA) (fun haA => hAB _ haA hand.1) hand.2.2)

theorem compress2_chain {A B C : List Nat} (hA : List.Pairwise (· < ·) A)
    (hB : List.Pairwise (· < ·) B) (hC : List.Pairwise (· < ·) C)
    (hAB : ∀ x ∈ A, x ∉ B) (hAC : ∀ x ∈ A, x ∉ C) (hBC : ∀ x ∈ B, x ∉ C) :
    List.Chain' (· < ·) (compress2 A B C) := by
  have hndAB : (A ++ B).Nodup :=
    (pw_nodup hA).append (pw_nodup hB) (List.disjoint_left.mpr hAB)
  unfold compress2
  rw [List.chain'_map]
  apply List.Pairwise.chain'
  have h := List.Pairwise.and_mem.mp hC
  refine h.imp ?_
  intro a b hand
  have h1 : a ∉ A ++ B := by
    rw [List.mem_append]
    rintro (hmem | hmem)
    · exact hAC _ hmem hand.1
    · exact hBC _ hmem hand.1
  have hgap := cnt_gap hndAB h1 hand.2.2
  rw [cntLt_append, cntLt_append] at hgap
  exact hgap

theorem compress_lt_bound {L : List Nat} {x k : Nat}
    (hnd : L.Nodup) (hLlen : L.length = k) (hLbd : ∀ a ∈ L, a < 52)
    (hxL : x ∉ L) (hx52 : x < 52) :
    x - cntLt L x < 52 - k := by
  have hsplit : cntLt L x + (L.filter (fun a => !(decide (a < x)))).length = k := by
    have h := length_filter_split L (fun a => decide (a < x))
    rw [hLlen] at h
    exact h
  have hgebd : (L.filter (fun a => !(decide (a < x)))).length ≤ 52 - x - 1 := by
    apply nodup_Ioo_length_le (hnd.filter _)
    intro a ha
    have ham := List.mem_of_mem_filter ha
    have hcond := List.of_mem_filter ha
    simp only [Bool.not_eq_true', decide_eq_false_iff_not, Nat.not_lt] at hcond
    have hne : a ≠ x := fun h => hxL (h ▸ ham)
    exact ⟨by omega, hLbd a ham⟩
  have hle := cntLt_le_self hnd x
  omega

theorem compress1_lt {A B : List Nat} (hA : List.Pairwise (· < ·) A)
    (hAlen : A.length = 13) (hAbd : ∀ x ∈ A, x < 52) (hBbd : ∀ x ∈ B, x < 52)
    (hAB : ∀ x ∈ A, x ∉ B) :
    ∀ y ∈ compress1 A B, y < 39 := by
  intro y hy
  rcases List.mem_map.mp hy with ⟨x, hx, rfl⟩
  have h := compress_lt_bound (pw_nodup hA) hAlen hAbd
    (fun hmem => hAB x hmem hx) (hBbd x hx)
  omega

theorem compress2_lt {A B C : List Nat} (hA : List.Pairwise (· < ·) A)
    (hB : List.Pairwise (· < ·) B)
    (hAlen : A.length = 13) (hBlen : B.length = 13)
    (hAbd : ∀ x ∈ A, x < 52) (hBbd : ∀ x ∈ B, x < 52) (hCbd : ∀ x ∈ C, x < 52)
    (hAB : ∀ x ∈ A, x ∉ B) (hAC : ∀ x ∈ A, x ∉ C) (hBC : ∀ x ∈ B, x ∉ C) :
    ∀ y ∈ compress2 A B C, y < 26 := by
  intro y hy
  rcases List.mem_map.mp hy with ⟨x, hx, rfl⟩
  have hndAB : (A ++ B).Nodup :=
    (pw_nodup hA).append (pw_nodup hB) (List.disjoint_left.mpr hAB)
  have hxAB : x ∉ A ++ B := by
    rw [List.mem_append]
    rintro (h | h)
    · exact hAC x h hx
    · exact hBC x h hx
  have h := compress_lt_bound hndAB
    (by rw [List.length_append, hAlen, hBlen]) (by
      intro a ha
      rcases List.mem_append.mp ha with h | h
      · exact hAbd a h
      · exact hBbd a h) hxAB (hCbd x hx)
  rw [← cntLt_append]
  omega

theorem complList_chain (A B C : List Nat) (e : Nat) :
    List.Chain' (· < ·) (complList A B C e) := by
  apply List.Pairwise.chain'
  exact (List.pairwise_lt_range e).sublist (List.filter_sublist _)

theorem complList_mem (A B C : List Nat) (e x : Nat) :
    x ∈ complList A B C e ↔ (x < e ∧ x ∉ A ∧ x ∉ B ∧ x ∉ C) := by
  unfold complList
  rw [List.mem_filter, List.mem_range]
  simp

theorem complList_length {A B C : List Nat}
    (hA : List.Pairwise (· < ·) A) (hB : List.Pairwise (· < ·) B)
    (hC : List.Pairwise (· < ·) C)
    (hAB : ∀ x ∈ A, x ∉ B) (hAC : ∀ x ∈ A, x ∉ C) (hBC : ∀ x ∈ B, x ∉ C) :
    ∀ e : Nat, (complList A B C e).length + (cntLt A e + cntLt B e + cntLt C e) = e := by
  intro e
  induction e with
  | zero =>
    rw [cntLt_zero, cntLt_zero, cntLt_zero]
    rfl
  | succ e ih =>
    rw [cntLt_succ (pw_nodup hA) e, cntLt_succ (pw_nodup hB) e,
      cntLt_succ (pw_nodup hC) e]
    by_cases heA : e ∈ A
    · rw [complList_succ_mem (Or.inl heA), if_pos heA,
        if_neg (hAB e heA), if_neg (hAC e heA)]
      omega
    · by_cases heB : e ∈ B
      · rw [complList_succ_mem (Or.inr (Or.inl heB)), if_neg heA,
          if_pos heB, if_neg (hBC e heB)]
        omega
      · by_cases heC : e ∈ C
        · rw [complList_succ_mem (Or.inr (Or.inr heC)), if_neg heA,
            if_neg heB, if_pos heC]
          omega
        · rw [complList_succ_not_mem heA heB heC, List.length_append,
            if_neg heA, if_neg heB, if_neg heC]
          simp only [List.length_singleton]
          omega

theorem asc_eq_of_mem_iff {L M : List Nat} (hL : List.Pairwise (· < ·) L)
    (hM : List.Pairwise (· < ·) M) (h : ∀ x, x ∈ L ↔ x ∈ M) : L = M := by
  apply List.eq_of_perm_of_sorted (r := (· ≤ ·))
  · exact List.perm_of_nodup_nodup_toFinset_eq (pw_nodup hL) (pw_nodup hM)
      (Finset.ext fun a => by
        rw [List.mem_toFinset, List.mem_toFinset]
        exact h a)
  · exact hL.imp (fun hab => Nat.le_of_lt hab)
  · exact hM.imp (fun hab => Nat.le_of_lt hab)

theorem toInts_ne_nil {L : List Nat} (hne : L ≠ []) : toInts L ≠ [] := by
  cases L with
  | nil => exact absurd rfl hne
  | cons x t => simp [toInts]

theorem pyMin_toInts_nonneg {L : List Nat} (hne : L ≠ []) : 0 ≤ pyMin (toInts L) := by
  have hmem := pyMin_mem (toInts_ne_nil hne)
  rcases List.mem_map.mp hmem with ⟨x, _, hx⟩
  rw [← hx]
  exact Int.natCast_nonneg x

theorem pyMax_toInts_lt {L : List Nat} (hne : L ≠ []) {v : Nat}
    (hbd : ∀ x ∈ L, x < v) : pyMax (toInts L) < (v : Int) := by
  have hmem := pyMax_mem (toInts_ne_nil hne)
  rcases List.mem_map.mp hmem with ⟨x, hxL, hx⟩
  rw [← hx]
  exact_mod_cast hbd x hxL

theorem length13_ne_nil {L : List Nat} (hl : L.length = 13) : L ≠ [] := by
  intro h
  rw [h] at hl
  cases hl

/-! ## Full evaluation of `index52_13` on a valid partition -/

theorem index52_13_eval {g0 g1 g2 g3 : List Nat}
    (hc0 : List.Chain' (· < ·) g0) (hc1 : List.Chain' (· < ·) g1)
    (hc2 : List.Chain' (· < ·) g2)
    (hb0 : ∀ x ∈ g0, x < 52) (hb1 : ∀ x ∈ g1, x < 52) (hb2 : ∀ x ∈ g2, x < 52)
    (hb3 : ∀ x ∈ g3, x < 52)
    (hl0 : g0.length = 13) (hl1 : g1.length = 13) (hl2 : g2.length = 13)
    (hl3 : g3.length = 13)
    (d01 : ∀ x ∈ g0, x ∉ g1) (d02 : ∀ x ∈ g0, x ∉ g2) (d12 : ∀ x ∈ g1, x ∉ g2) :
    index52_13 [toInts g0, toInts g1, toInts g2, toInts g3]
      = some (((revIdx g0.reverse 13 * (chooseN 39 13 * chooseN 26 13)
          + revIdx (compress1 g0 g1).reverse 13 * chooseN 26 13
          + revIdx (compress2 g0 g1 g2).reverse 13 : Nat)) : Int) := by
  have hp0 : List.Pairwise (· < ·) g0 := List.chain'_iff_pairwise.mp hc0
  have hp1 : List.Pairwise (· < ·) g1 := List.chain'_iff_pairwise.mp hc1
  have hp2 : List.Pairwise (· < ·) g2 := List.chain'_iff_pairwise.mp hc2
  have hcm1 : (compress1 g0 g1).length = 13 := by rw [compress1_length, hl1]
  have hcm2 : (compress2 g0 g1 g2).length = 13 := by rw [compress2_length, hl2]
  unfold index52_13
  rw [if_neg (not_not_intro (Or.inr (by rfl)))]
  have hlen4 : ∀ s ∈ [toInts g0, toInts g1, toInts g2, toInts g3], s.length = 13 := by
    intro s hs
    simp only [List.mem_cons, List.not_mem_nil, or_false] at hs
    rcases hs with rfl | rfl | rfl | rfl <;> rw [toInts_length] <;> assumption
  rw [if_neg (not_not_intro hlen4)]
  have hmm : ∀ s ∈ [toInts g0, toInts g1, toInts g2, toInts g3],
      0 ≤ pyMin s ∧ pyMax s < 52 := by
    intro s hs
    simp only [List.mem_cons, List.not_mem_nil, or_false] at hs
    rcases hs with rfl | rfl | rfl | rfl
    · exact ⟨pyMin_toInts_nonneg (length13_ne_nil hl0),
        pyMax_toInts_lt (length13_ne_nil hl0) hb0⟩
    · exact ⟨pyMin_toInts_nonneg (length13_ne_nil hl1),
        pyMax_toInts_lt (length13_ne_nil hl1) hb1⟩
    · exact ⟨pyMin_toInts_nonneg (length13_ne_nil hl2),
        pyMax_toInts_lt (length13_ne_nil hl2) hb2⟩
    · exact ⟨pyMin_toInts_nonneg (length13_ne_nil hl3),
        pyMax_toInts_lt (length13_ne_nil hl3) hb3⟩
  rw [if_neg (not_not_intro hmm)]
  have e0 : ([toInts g0, toInts g1, toInts g2, toInts g3]).getD 0 [] = toInts g0 := rfl
  have e1 : ([toInts g0, toInts g1, toInts g2, toInts g3]).getD 1 [] = toInts g1 := rfl
  have e2 : ([toInts g0, toInts g1, toInts g2, toInts g3]).getD 2 [] = toInts g2 := rfl
  have hm1 : midQ (toInts g1) (toInts (compress1 g0 g1)) (cntLt g1 52)
      = toInts (compress1 g0 g1) := by
    rw [cntLt_all hb1, hl1]
    exact midQ_full (by rw [toInts_length, toInts_length, compress1_length])
      (by rw [toInts_length, hl1])
  have hm2 : midQ (toInts g2) (toInts (compress2 g0 g1 g2)) (cntLt g2 52)
      = toInts (compress2 g0 g1 g2) := by
    rw [cntLt_all hb2, hl2]
    exact midQ_full (by rw [toInts_length, toInts_length, compress2_length])
      (by rw [toInts_length, hl2])
  simp only [e0, e1, e2,
    sortedPy_eq_of_sorted (toInts_sorted_le hc0),
    sortedPy_eq_of_sorted (toInts_sorted_le hc1),
    sortedPy_eq_of_sorted (toInts_sorted_le hc2),
    ixFold hp0 hp1 hp2 hl0 hl1 hl2 d01 d02 d12 52, hm1, hm2]
  have hg1 : ∀ y ∈ compress1 g0 g1, y < 39 := compress1_lt hp0 hl0 hb0 hb1 d01
  have hg2 : ∀ y ∈ compress2 g0 g1 g2, y < 26 :=
    compress2_lt hp0 hp1 hl0 hl1 hb0 hb1 hb2 d01 d02 d12
  have hpost1 : 0 ≤ pyMin (toInts g0) ∧ 0 ≤ pyMin (toInts (compress1 g0 g1)) ∧
      0 ≤ pyMin (toInts (compress2 g0 g1 g2)) :=
    ⟨pyMin_toInts_nonneg (length13_ne_nil hl0),
     pyMin_toInts_nonneg (length13_ne_nil hcm1),
     pyMin_toInts_nonneg (length13_ne_nil hcm2)⟩
  have hpost2 : pyMax (toInts g0) < 52 ∧ pyMax (toInts (compress1 g0 g1)) < 39 ∧
      pyMax (toInts (compress2 g0 g1 g2)) < 26 :=
    ⟨pyMax_toInts_lt (length13_ne_nil hl0) hb0,
     pyMax_toInts_lt (length13_ne_nil hcm1) hg1,
     pyMax_toInts_lt (length13_ne_nil hcm2) hg2⟩
  rw [if_neg (not_not_intro hpost1), if_neg (not_not_intro hpost2)]
  have hi0 : indexI (toInts g0) = ((revIdx g0.reverse 13 : Nat) : Int) := by
    rw [indexI_cast, hl0]
  have hi1 : indexI (toInts (compress1 g0 g1))
      = ((revIdx (compress1 g0 g1).reverse 13 : Nat) : Int) := by
    rw [indexI_cast, hcm1]
  have hi2 : indexI (toInts (compress2 g0 g1 g2))
      = ((revIdx (compress2 g0 g1 g2).reverse 13 : Nat) : Int) := by
    rw [indexI_cast, hcm2]
  have hmax26 : max26 = ((chooseN 26 13 : Nat) : Int) := by decide
  have hmax39 : max39 = ((chooseN 39 13 * chooseN 26 13 : Nat) : Int) := by decide
  rw [hi0, hi1, hi2, hmax26, hmax39]
  push_cast
  ring_nf

/-! ## Full evaluation of `seq52_13` at the index of a valid partition -/

theorem nat_peel_div {q r M : Nat} (hM : 0 < M) (hr : r < M) : (q * M + r) / M = q := by
  rw [Nat.add_comm, Nat.add_mul_div_right _ _ hM, Nat.div_eq_of_lt hr]
  omega

theorem nat_peel_mod {q r M : Nat} (hr : r < M) : (q * M + r) % M = r := by
  rw [Nat.add_comm, Nat.add_mul_mod_self_right, Nat.mod_eq_of_lt hr]

theorem max26_eq : max26 = ((chooseN 26 13 : Nat) : Int) := by decide

theorem max39_eq : max39 = ((chooseN 39 13 * chooseN 26 13 : Nat) : Int) := by decide

set_option maxRecDepth 4000 in
theorem seq52_13_eval {g0 g1 g2 g3 : List Nat}
    (hc0 : List.Chain' (· < ·) g0) (hc1 : List.Chain' (· < ·) g1)
    (hc2 : List.Chain' (· < ·) g2)
    (hb0 : ∀ x ∈ g0, x < 52) (hb1 : ∀ x ∈ g1, x < 52) (hb2 : ∀ x ∈ g2, x < 52)
    (hb3 : ∀ x ∈ g3, x < 52)
    (hl0 : g0.length = 13) (hl1 : g1.length = 13) (hl2 : g2.length = 13)
    (hl3 : g3.length = 13)
    (d01 : ∀ x ∈ g0, x ∉ g1) (d02 : ∀ x ∈ g0, x ∉ g2) (d12 : ∀ x ∈ g1, x ∉ g2)
    (hg3 : g3 = complList g0 g1 g2 52) :
    seq52_13 (((revIdx g0.reverse 13 * (chooseN 39 13 * chooseN 26 13)
        + revIdx (compress1 g0 g1).reverse 13 * chooseN 26 13
        + revIdx (compress2 g0 g1 g2).reverse 13 : Nat)) : Int)
      = some [toInts g0, toInts g1, toInts g2, toInts g3] := by
  have hp0 : List.Pairwise (· < ·) g0 := List.chain'_iff_pairwise.mp hc0
  have hp1 : List.Pairwise (· < ·) g1 := List.chain'_iff_pairwise.mp hc1
  have hp2 : List.Pairwise (· < ·) g2 := List.chain'_iff_pairwise.mp hc2
  have hcm1 : (compress1 g0 g1).length = 13 := by rw [compress1_length, hl1]
  have hcm2 : (compress2 g0 g1 g2).length = 13 := by rw [compress2_length, hl2]
  have hch1 : List.Chain' (· < ·) (compress1 g0 g1) := compress1_chain hp0 hp1 d01
  have hch2 : List.Chain' (· < ·) (compress2 g0 g1 g2) :=
    compress2_chain hp0 hp1 hp2 d01 d02 d12
  have hg1lt : ∀ y ∈ compress1 g0 g1, y < 39 := compress1_lt hp0 hl0 hb0 hb1 d01
  have hg2lt : ∀ y ∈ compress2 g0 g1 g2, y < 26 :=
    compress2_lt hp0 hp1 hl0 hl1 hb0 hb1 hb2 d01 d02 d12
  have hrB : revIdx (compress1 g0 g1).reverse 13 < chooseN 39 13 := by
    rw [chooseN_eq]
    have h := revIdx_lt_choose (n := 39) hch1 hg1lt
    rwa [hcm1] at h
  have hrC : revIdx (compress2 g0 g1 g2).reverse 13 < chooseN 26 13 := by
    rw [chooseN_eq]
    have h := revIdx_lt_choose (n := 26) hch2 hg2lt
    rwa [hcm2] at h
  have hm26pos : 0 < chooseN 26 13 := by
    rw [chooseN_eq]; exact Nat.choose_pos (by omega)
  have hm39pos : 0 < chooseN 39 13 := by
    rw [chooseN_eq]; exact Nat.choose_pos (by omega)
  have hMpos : 0 < chooseN 39 13 * chooseN 26 13 := Nat.mul_pos hm39pos hm26pos
  have hsub : revIdx (compress1 g0 g1).reverse 13 * chooseN 26 13
      + revIdx (compress2 g0 g1 g2).reverse 13 < chooseN 39 13 * chooseN 26 13 := by
    calc revIdx (compress1 g0 g1).reverse 13 * chooseN 26 13
          + revIdx (compress2 g0 g1 g2).reverse 13
        < revIdx (compress1 g0 g1).reverse 13 * chooseN 26 13 + chooseN 26 13 := by omega
      _ = (revIdx (compress1 g0 g1).reverse 13 + 1) * chooseN 26 13 := by ring
      _ ≤ chooseN 39 13 * chooseN 26 13 := Nat.mul_le_mul_right _ (by omega)
  have hN : revIdx g0.reverse 13 * (chooseN 39 13 * chooseN 26 13)
      + revIdx (compress1 g0 g1).reverse 13 * chooseN 26 13
      + revIdx (compress2 g0 g1 g2).reverse 13
    = revIdx g0.reverse 13 * (chooseN 39 13 * chooseN 26 13)
      + (revIdx (compress1 g0 g1).reverse 13 * chooseN 26 13
        + revIdx (compress2 g0 g1 g2).reverse 13) := by ring
  have e1 : ((revIdx g0.reverse 13 * (chooseN 39 13 * chooseN 26 13)
      + revIdx (compress1 g0 g1).reverse 13 * chooseN 26 13
      + revIdx (compress2 g0 g1 g2).reverse 13 : Nat) : Int).fdiv max39
      = ((revIdx g0.reverse 13 : Nat) : Int) := by
    rw [max39_eq, fdiv_natCast, hN, nat_peel_div hMpos hsub]
  have e2 : ((revIdx g0.reverse 13 * (chooseN 39 13 * chooseN 26 13)
      + revIdx (compress1 g0 g1).reverse 13 * chooseN 26 13
      + revIdx (compress2 g0 g1 g2).reverse 13 : Nat) : Int).fmod max39
      = ((revIdx (compress1 g0 g1).reverse 13 * chooseN 26 13
        + revIdx (compress2 g0 g1 g2).reverse 13 : Nat) : Int) := by
    rw [max39_eq, fmod_natCast, hN, nat_peel_mod hsub]
  have e3 : ((revIdx (compress1 g0 g1).reverse 13 * chooseN 26 13
      + revIdx (compress2 g0 g1 g2).reverse 13 : Nat) : Int).fdiv max26
      = ((revIdx (compress1 g0 g1).reverse 13 : Nat) : Int) := by
    rw [max26_eq, fdiv_natCast, nat_peel_div hm26pos hrC]
  have e4 : ((revIdx (compress1 g0 g1).reverse 13 * chooseN 26 13
      + revIdx (compress2 g0 g1 g2).reverse 13 : Nat) : Int).fmod max26
      = ((revIdx (compress2 g0 g1 g2).reverse 13 : Nat) : Int) := by
    rw [max26_eq, fmod_natCast, nat_peel_mod hrC]
  have sA : seqPy ((revIdx g0.reverse 13 : Nat) : Int) 52 13 = toInts g0 := by
    have h := seq_index_roundtrip 52 g0 hc0 hb0
    rw [indexI_cast, hl0] at h
    push_cast at h ⊢
    exact h
  have sB : seqPy ((revIdx (compress1 g0 g1).reverse 13 : Nat) : Int) 39 13
      = toInts (compress1 g0 g1) := by
    have h := seq_index_roundtrip 39 (compress1 g0 g1) hch1 hg1lt
    rw [indexI_cast, hcm1] at h
    push_cast at h ⊢
    exact h
  have sC : seqPy ((revIdx (compress2 g0 g1 g2).reverse 13 : Nat) : Int) 26 13
      = toInts (compress2 g0 g1 g2) := by
    have h := seq_index_roundtrip 26 (compress2 g0 g1 g2) hch2 hg2lt
    rw [indexI_cast, hcm2] at h
    push_cast at h ⊢
    exact h
  have hm1 : midQ (toInts (compress1 g0 g1)) (toInts g1) (cntLt g1 52) = toInts g1 := by
    rw [cntLt_all hb1, hl1]
    exact midQ_full (by rw [toInts_length, toInts_length, compress1_length])
      (by rw [toInts_length, compress1_length, hl1])
  have hm2 : midQ (toInts (compress2 g0 g1 g2)) (toInts g2) (cntLt g2 52)
      = toInts g2 := by
    rw [cntLt_all hb2, hl2]
    exact midQ_full (by rw [toInts_length, toInts_length, compress2_length])
      (by rw [toInts_length, compress2_length, hl2])
  unfold seq52_13
  simp only [e1, e2, e3, e4, sA, sB, sC,
    expFold hp0 hp1 hp2 hl0 hl1 hl2 d01 d02 d12 52, hm1, hm2, ← hg3]
  have hfin1 : ∀ s ∈ [toInts g0, toInts g1, toInts g2, toInts g3], s.length = 13 := by
    intro s hs
    simp only [List.mem_cons, List.not_mem_nil, or_false] at hs
    rcases hs with rfl | rfl | rfl | rfl <;> rw [toInts_length]
    exacts [hl0, hl1, hl2, hl3]
  have hfin2 : ∀ s ∈ [toInts g0, toInts g1, toInts g2, toInts g3],
      0 ≤ pyMin s ∧ pyMax s < 52 := by
    intro s hs
    simp only [List.mem_cons, List.not_mem_nil, or_false] at hs
    rcases hs with rfl | rfl | rfl | rfl
    · exact ⟨pyMin_toInts_nonneg (length13_ne_nil hl0),
        pyMax_toInts_lt (length13_ne_nil hl0) hb0⟩
    · exact ⟨pyMin_toInts_nonneg (length13_ne_nil hl1),
        pyMax_toInts_lt (length13_ne_nil hl1) hb1⟩
    · exact ⟨pyMin_toInts_nonneg (length13_ne_nil hl2),
        pyMax_toInts_lt (length13_ne_nil hl2) hb2⟩
    · exact ⟨pyMin_toInts_nonneg (length13_ne_nil hl3),
        pyMax_toInts_lt (length13_ne_nil hl3) hb3⟩
  rw [if_neg (not_not_intro hfin1), if_neg (not_not_intro hfin2)]

/-- In a partition of `[0,52)` into four disjoint ascending 13-element groups,
the fourth group is exactly the ascending complement of the first three. -/
theorem partition_fourth_eq_compl {g0 g1 g2 g3 : List Nat}
    (hp0 : List.Pairwise (· < ·) g0) (hp1 : List.Pairwise (· < ·) g1)
    (hp2 : List.Pairwise (· < ·) g2) (hp3 : List.Pairwise (· < ·) g3)
    (hb0 : ∀ x ∈ g0, x < 52) (hb1 : ∀ x ∈ g1, x < 52) (hb2 : ∀ x ∈ g2, x < 52)
    (hb3 : ∀ x ∈ g3, x < 52)
    (hl0 : g0.length = 13) (hl1 : g1.length = 13) (hl2 : g2.length = 13)
    (hl3 : g3.length = 13)
    (d03 : ∀ x ∈ g0, x ∉ g3) (d13 : ∀ x ∈ g1, x ∉ g3) (d23 : ∀ x ∈ g2, x ∉ g3)
    (d01 : ∀ x ∈ g0, x ∉ g1) (d02 : ∀ x ∈ g0, x ∉ g2) (d12 : ∀ x ∈ g1, x ∉ g2) :
    g3 = complList g0 g1 g2 52 := by
  have hclen : (complList g0 g1 g2 52).length = 13 := by
    have h := complList_length hp0 hp1 hp2 d01 d02 d12 52
    rw [cntLt_all hb0, cntLt_all hb1, cntLt_all hb2, hl0, hl1, hl2] at h
    omega
  have hsub : ∀ x ∈ g3, x ∈ complList g0 g1 g2 52 := by
    intro x hx
    rw [complList_mem]
    refine ⟨hb3 x hx, ?_, ?_, ?_⟩
    · intro h0
      exact d03 x h0 hx
    · intro h1
      exact d13 x h1 hx
    · intro h2
      exact d23 x h2 hx
  have hpc : List.Pairwise (· < ·) (complList g0 g1 g2 52) :=
    List.chain'_iff_pairwise.mp (complList_chain g0 g1 g2 52)
  have hfs : g3.toFinset ⊆ (complList g0 g1 g2 52).toFinset := by
    intro a ha
    rw [List.mem_toFinset] at ha ⊢
    exact hsub a ha
  have hcard3 : g3.toFinset.card = 13 := by
    rw [List.toFinset_card_of_nodup (pw_nodup hp3), hl3]
  have hcardc : (complList g0 g1 g2 52).toFinset.card = 13 := by
    rw [List.toFinset_card_of_nodup (pw_nodup hpc), hclen]
  have heq : g3.toFinset = (complList g0 g1 g2 52).toFinset :=
    Finset.eq_of_subset_of_card_le hfs (le_of_eq (hcardc.trans hcard3.symm))
  apply asc_eq_of_mem_iff hp3 hpc
  intro x
  rw [← List.mem_toFinset, ← List.mem_toFinset, heq]

/-- Claim C1: for every ordered partition of the universe `[0,52)` into 4
pairwise-disjoint groups of exactly 13 elements each (each group an ascending
list), decoding the encoding returns the same partition, with the same group
order and the 4th group equal to the complement of the first three:
`seq52_13 (index52_13 groups) = groups`. -/
theorem claim_C1_deal_roundtrip {g0 g1 g2 g3 : List Nat}
    (h0 : ascIn 52 g0) (h1 : ascIn 52 g1) (h2 : ascIn 52 g2) (h3 : ascIn 52 g3)
    (hl0 : g0.length = 13) (hl1 : g1.length = 13) (hl2 : g2.length = 13)
    (hl3 : g3.length = 13)
    (d01 : ∀ x ∈ g0, x ∉ g1) (d02 : ∀ x ∈ g0, x ∉ g2) (d03 : ∀ x ∈ g0, x ∉ g3)
    (d12 : ∀ x ∈ g1, x ∉ g2) (d13 : ∀ x ∈ g1, x ∉ g3) (d23 : ∀ x ∈ g2, x ∉ g3) :
    ∃ i : Int,
      index52_13 [toInts g0, toInts g1, toInts g2, toInts g3] = some i ∧
      seq52_13 i = some [toInts g0, toInts g1, toInts g2, toInts g3] := by
  obtain ⟨hc0, hb0⟩ := h0
  obtain ⟨hc1, hb1⟩ := h1
  obtain ⟨hc2, hb2⟩ := h2
  obtain ⟨hc3, hb3⟩ := h3
  have hg3 : g3 = complList g0 g1 g2 52 :=
    partition_fourth_eq_compl (List.chain'_iff_pairwise.mp hc0)
      (List.chain'_iff_pairwise.mp hc1) (List.chain'_iff_pairwise.mp hc2)
      (List.chain'_iff_pairwise.mp hc3) hb0 hb1 hb2 hb3 hl0 hl1 hl2 hl3
      d03 d13 d23 d01 d02 d12
  exact ⟨_, index52_13_eval hc0 hc1 hc2 hb0 hb1 hb2 hb3 hl0 hl1 hl2 hl3 d01 d02 d12,
    seq52_13_eval hc0 hc1 hc2 hb0 hb1 hb2 hb3 hl0 hl1 hl2 hl3 d01 d02 d12 hg3⟩

/-- Witness for claim C1 at the concrete partition
`[0..12], [13..25], [26..38], [39..51]`. -/
theorem claim_C1_witness :
    ∃ i : Int,
      index52_13 [toInts (List.range 13), toInts (List.range' 13 13),
          toInts (List.range' 26 13), toInts (List.range' 39 13)] = some i ∧
      seq52_13 i = some [toInts (List.range 13), toInts (List.range' 13 13),
          toInts (List.range' 26 13), toInts (List.range' 39 13)] :=
  claim_C1_deal_roundtrip (by decide) (by decide) (by decide) (by decide)
    (by decide) (by decide) (by decide) (by decide)
    (by decide) (by decide) (by decide) (by decide) (by decide) (by decide)

/-- Witness for claim C10: a shuffled deal gets the same index as its sorted
form. -/
theorem claim_C10_witness :
    index52_13 [toInts (List.range' 39 13), toInts (List.range' 26 13),
        toInts (List.range' 13 13), toInts (List.range 13)] =
      index52_13 [(51 : Int) :: toInts (List.range' 39 12),
        toInts (List.range' 26 13).reverse,
        toInts (List.range' 13 13), (12 : Int) :: toInts (List.range 12)] :=
  claim_C10_perm_insensitive.1 _ _ _ _ _ _ _ _
    (by decide) (by decide) (by decide) (by decide)

end SquashedOrder
